import Mathlib

/-!
Verification of the minesweeper core: board model, reveal engine,
flag toggling, mine placement and the win/loss evaluators.

The repository contains two variants of the game service.  Both are
embedded here:
* `showCell1` / `isGameOver` — the variant without a flag check whose
  recursion is spawned per neighbour (embedded sequentially);
* `showCell2` / `isWinOrGameOver` — the variant that checks `isFlagged`
  before marking a cell shown and recurses sequentially.

Machine integers are modelled as `Int` (coordinates, dimensions, the
configured mine quantity) and `Nat` (counts).  The recursive flood
reveal is embedded with an explicit fuel parameter; `none` means the
fuel was exhausted, so termination statements say that some concrete
fuel yields `some`.
-/

/-- A cell of the board: `models.Cell` with fields IsMine, IsShown,
IsFlagged, NearbyMines. -/
structure Cell where
  isMine : Bool
  isShown : Bool
  isFlagged : Bool
  nearbyMines : Nat
deriving Repr, DecidableEq

instance : Inhabited Cell := ⟨⟨false, false, false, 0⟩⟩

/-- The board: `models.Minesweeper` with fields Board, Rows, Cols. -/
structure Minesweeper where
  board : List (List Cell)
  rows : Int
  cols : Int
deriving Repr, DecidableEq

/-- Embedding of `models.NewMinesweeper`: a rows×cols grid of zeroed cells. -/
def newMinesweeper (rows cols : Nat) : Minesweeper :=
  { board := List.replicate rows (List.replicate cols default)
    rows := (rows : Int)
    cols := (cols : Int) }

/-- Read `Board[row][col]`; out-of-range reads give the zero cell
(the source only reads inside the validity guard). -/
def getCell (g : Minesweeper) (row col : Nat) : Cell :=
  (g.board.getD row []).getD col default

/-- Write `Board[row][col]`; out-of-range writes are dropped
(the source only writes inside the validity guard). -/
def setCell (g : Minesweeper) (row col : Nat) (cell : Cell) : Minesweeper :=
  { g with board := g.board.set row ((g.board.getD row []).set col cell) }

/-- Embedding of `ifCellValid`: row and col within the board borders. -/
def ifCellValid (g : Minesweeper) (row col : Int) : Prop :=
  0 ≤ row ∧ row < g.rows ∧ 0 ≤ col ∧ col < g.cols

instance (g : Minesweeper) (row col : Int) : Decidable (ifCellValid g row col) := by
  unfold ifCellValid; infer_instance

/-- The eight Moore-neighbourhood offsets in the order the nested
`deltaRow`/`deltaCol` loops of the source visit them, skipping (0,0). -/
def deltas : List (Int × Int) :=
  [(-1, -1), (-1, 0), (-1, 1), (0, -1), (0, 1), (1, -1), (1, 0), (1, 1)]

/-- Embedding of `countNearbyMines`: number of valid neighbours holding a mine. -/
def countNearbyMines (g : Minesweeper) (row col : Int) : Nat :=
  List.countP (fun d : Int × Int =>
    decide (ifCellValid g (row + d.1) (col + d.2)) &&
      (getCell g (row + d.1).toNat (col + d.2).toNat).isMine) deltas

/-- Sequential fold of the flood reveal over a list of neighbour
offsets: `f` is the recursive call at the next smaller fuel. -/
def showNeighbors (f : Minesweeper → Int → Int → Option Minesweeper) :
    Minesweeper → List (Int × Int) → Int → Int → Option Minesweeper
  | g, [], _, _ => some g
  | g, d :: rest, row, col =>
    match f g (row + d.1) (col + d.2) with
    | none => none
    | some g2 => showNeighbors f g2 rest row col

/-- The `IsShown` write of `showCell`: skipped when the flag check is
active (`cf = true`) and the cell is flagged. -/
def stepShow (cf : Bool) (g : Minesweeper) (r c : Nat) : Minesweeper :=
  if cf && (getCell g r c).isFlagged then g
  else setCell g r c { getCell g r c with isShown := true }

/-- The `NearbyMines` write of `showCell`. -/
def stepNearby (g : Minesweeper) (r c : Nat) (row col : Int) : Minesweeper :=
  setCell g r c { getCell g r c with nearbyMines := countNearbyMines g row col }

/-- Embedding of `showCell`, parametric in the flag check `cf` (false: first variant,
which marks the cell shown unconditionally; true: second variant, which
marks it shown only when not flagged).  Fuel bounds the recursion
depth; `none` reports fuel exhaustion. -/
def showCellA (cf : Bool) : Nat → Minesweeper → Int → Int → Option Minesweeper
  | 0, g, row, col =>
    if ¬ ifCellValid g row col ∨ (getCell g row.toNat col.toNat).isShown = true then some g
    else none
  | n + 1, g, row, col =>
    if ¬ ifCellValid g row col ∨ (getCell g row.toNat col.toNat).isShown = true then some g
    else if (getCell (stepNearby (stepShow cf g row.toNat col.toNat)
        row.toNat col.toNat row col) row.toNat col.toNat).nearbyMines = 0 then
      showNeighbors (showCellA cf n)
        (stepNearby (stepShow cf g row.toNat col.toNat) row.toNat col.toNat row col)
        deltas row col
    else some (stepNearby (stepShow cf g row.toNat col.toNat) row.toNat col.toNat row col)

/-- First variant of `showCell` (no flag check). -/
def showCell1 : Nat → Minesweeper → Int → Int → Option Minesweeper := showCellA false

/-- Second variant of `showCell` (flagged cells are not marked shown). -/
def showCell2 : Nat → Minesweeper → Int → Int → Option Minesweeper := showCellA true

/-- A sequence of `showCell` calls, each given as (fuel, row, col). -/
def runShows (cf : Bool) : Minesweeper → List (Nat × Int × Int) → Option Minesweeper
  | g, [] => some g
  | g, t :: rest =>
    match showCellA cf t.1 g t.2.1 t.2.2 with
    | none => none
    | some g2 => runShows cf g2 rest

/-- Embedding of `flagCell`: toggle the flag of a valid cell, ignore invalid coordinates. -/
def flagCell (g : Minesweeper) (row col : Int) : Minesweeper :=
  if ifCellValid g row col then
    setCell g row.toNat col.toNat
      { getCell g row.toNat col.toNat with
        isFlagged := !(getCell g row.toNat col.toNat).isFlagged }
  else g

/-- Embedding of `revealAll`: mark every cell shown. -/
def revealAll (g : Minesweeper) : Minesweeper :=
  (List.range g.rows.toNat).foldl (fun gr r =>
    (List.range g.cols.toNat).foldl (fun gc c =>
      setCell gc r c { getCell gc r c with isShown := true }) gr) g

/-- The board cells in the row-major order the evaluator loops scan them. -/
def cellsOf (g : Minesweeper) : List Cell :=
  ((List.range g.rows.toNat).map (fun r =>
    (List.range g.cols.toNat).map (fun c => getCell g r c))).flatten

/-- The shared scan of both evaluators: `none` when a shown mine is hit
(the loop returns immediately), otherwise the count of shown non-mine
cells. -/
def scanShown : List Cell → Option Nat
  | [] => some 0
  | cell :: rest =>
    if cell.isShown then
      if cell.isMine then none
      else Option.map (fun k => k + 1) (scanShown rest)
    else scanShown rest

/-- Embedding of `isGameOver` of the first variant: `(gameOver, gameWon)`.  The win
test compares the count of shown non-mine cells with the mine quantity. -/
def isGameOver (g : Minesweeper) (mineQuantity : Int) : Bool × Bool :=
  match scanShown (cellsOf g) with
  | none => (true, false)
  | some k => if (k : Int) = mineQuantity then (true, true) else (false, false)

/-- Embedding of `isWinOrGameOver` of the second variant: the win test compares
`allCells - shownNonMineCells` with the mine quantity. -/
def isWinOrGameOver (g : Minesweeper) (mineQuantity : Int) : Bool × Bool :=
  match scanShown (cellsOf g) with
  | none => (true, false)
  | some k =>
    if g.rows * g.cols - (k : Int) = mineQuantity then (true, true) else (false, false)

/-- All board coordinates in row-major order, as `PlaceMinesRandomly`
builds its `coords` slice. -/
def allCoords (rows cols : Nat) : List (Nat × Nat) :=
  ((List.range rows).map (fun r => (List.range cols).map (fun c => (r, c)))).flatten

/-- One Fisher–Yates step: `coords[i], coords[j] = coords[j], coords[i]`. -/
def listSwap (l : List (Nat × Nat)) (i j : Nat) : List (Nat × Nat) :=
  (l.set i (l.getD j (0, 0))).set j (l.getD i (0, 0))

/-- The Fisher–Yates loop, `i` from `len-1` down to `1`; `rand i` is the
value the source draws with `r.Intn(i+1)` (so `rand i ≤ i`). -/
def fyShuffle (rand : Nat → Nat) : Nat → List (Nat × Nat) → List (Nat × Nat)
  | 0, l => l
  | i + 1, l => fyShuffle rand i (listSwap l (i + 1) (rand (i + 1)))

/-- The write `ms.Board[row][col].IsMine = true`. -/
def setMine (g : Minesweeper) (rc : Nat × Nat) : Minesweeper :=
  setCell g rc.1 rc.2 { getCell g rc.1 rc.2 with isMine := true }

/-- The mine-placement loop `for i := 0; i < n && i < len(coords); i++`,
with the index lookup made explicit: `none` would mean an out-of-bounds
access. -/
def markLoop (g : Minesweeper) (coords : List (Nat × Nat)) (n : Nat) (i : Nat) :
    Option Minesweeper :=
  if _h : i < n ∧ i < coords.length then
    match coords[i]? with
    | none => none
    | some rc => markLoop (setMine g rc) coords n (i + 1)
  else some g
termination_by n - i
decreasing_by omega

/-- Embedding of `PlaceMinesRandomly`: build the coordinate list, shuffle, mark the
first `n` shuffled coordinates as mines. -/
def placeMinesRandomly (g : Minesweeper) (n : Nat) (rand : Nat → Nat) : Option Minesweeper :=
  let coords := allCoords g.rows.toNat g.cols.toNat
  let shuffled := fyShuffle rand (coords.length - 1) coords
  markLoop g shuffled n 0

/-- Total number of mined cells on the board. -/
def countMines (g : Minesweeper) : Nat :=
  (allCoords g.rows.toNat g.cols.toNat).countP (fun rc => (getCell g rc.1 rc.2).isMine)

/-- Number of coordinates whose cell is not shown. -/
def unshownCount (g : Minesweeper) : Nat :=
  (allCoords g.rows.toNat g.cols.toNat).countP (fun rc => !(getCell g rc.1 rc.2).isShown)

/-- Well-formed board: the list shape matches the stored dimensions. -/
def Wf (g : Minesweeper) : Prop :=
  0 ≤ g.rows ∧ 0 ≤ g.cols ∧ g.board.length = g.rows.toNat ∧
    ∀ row ∈ g.board, row.length = g.cols.toNat

instance (g : Minesweeper) : Decidable (Wf g) := by
  unfold Wf; infer_instance

/-- No cell of the board is flagged. -/
def NoFlags (g : Minesweeper) : Prop :=
  ∀ row ∈ g.board, ∀ cell ∈ row, cell.isFlagged = false

instance (g : Minesweeper) : Decidable (NoFlags g) := by
  unfold NoFlags; infer_instance

/-- How a board may evolve under the reveal engine: the dimensions, the
list shape, the mines and the flags are unchanged; `isShown` only goes
from false to true; `nearbyMines` is either untouched or set to the
adjacency count; and (for the flag-checking variant) a flagged cell's
`isShown` is untouched. -/
structure Evolves (cf : Bool) (g g' : Minesweeper) : Prop where
  rowsEq : g'.rows = g.rows
  colsEq : g'.cols = g.cols
  lenEq : g'.board.length = g.board.length
  rowLenEq : ∀ i, (g'.board.getD i []).length = (g.board.getD i []).length
  mineEq : ∀ r c, (getCell g' r c).isMine = (getCell g r c).isMine
  flagEq : ∀ r c, (getCell g' r c).isFlagged = (getCell g r c).isFlagged
  shownLe : ∀ r c, (getCell g r c).isShown = true → (getCell g' r c).isShown = true
  nearbyOr : ∀ r c, (getCell g' r c).nearbyMines = (getCell g r c).nearbyMines ∨
    (getCell g' r c).nearbyMines = countNearbyMines g (r : Int) (c : Int)
  flagShown : cf = true → ∀ r c, (getCell g r c).isFlagged = true →
    (getCell g' r c).isShown = (getCell g r c).isShown

/-- 2×2 board, hidden mine at (0,0), shown safe cell at (1,1), the two
other safe cells hidden. -/
def bogusWinBoard : Minesweeper :=
  { board := [[⟨true, false, false, 0⟩, ⟨false, false, false, 0⟩],
              [⟨false, false, false, 0⟩, ⟨false, true, false, 0⟩]]
    rows := 2, cols := 2 }

/-- 1×1 board whose only cell is flagged and not a mine. -/
def flaggedOneBoard : Minesweeper :=
  { board := [[⟨false, false, true, 0⟩]], rows := 1, cols := 1 }

/-- 1×2 mine-free board with both cells flagged. -/
def flaggedPairBoard : Minesweeper :=
  { board := [[⟨false, false, true, 0⟩, ⟨false, false, true, 0⟩]], rows := 1, cols := 2 }

/-- 1×2 mine-free board with only the left cell flagged. -/
def flagLeftBoard : Minesweeper :=
  { board := [[⟨false, false, true, 0⟩, ⟨false, false, false, 0⟩]], rows := 1, cols := 2 }

/-- The board `showCell2` produces from `flagLeftBoard` at (0,0): the
flagged cell keeps `isShown = false`, its neighbour is revealed. -/
def flagLeftAfter : Minesweeper :=
  { board := [[⟨false, false, true, 0⟩, ⟨false, true, false, 0⟩]], rows := 1, cols := 2 }

/-- 1×1 mine-free, flag-free, hidden board. -/
def oneCellBoard : Minesweeper :=
  { board := [[⟨false, false, false, 0⟩]], rows := 1, cols := 1 }

/-- The board `oneCellBoard` after revealing its only cell. -/
def oneCellShown : Minesweeper :=
  { board := [[⟨false, true, false, 0⟩]], rows := 1, cols := 1 }

/-- 3×3 board with a single hidden mine at (0,0). -/
def mine33Board : Minesweeper :=
  { board := [[⟨true, false, false, 0⟩, ⟨false, false, false, 0⟩, ⟨false, false, false, 0⟩],
              [⟨false, false, false, 0⟩, ⟨false, false, false, 0⟩, ⟨false, false, false, 0⟩],
              [⟨false, false, false, 0⟩, ⟨false, false, false, 0⟩, ⟨false, false, false, 0⟩]]
    rows := 3, cols := 3 }

/-- Guard lemma: on invalid or already-shown coordinates both `showCell`
variants return the board unchanged, whatever the fuel. -/
theorem showCellA_of_guard (cf : Bool) (fuel : Nat) (g : Minesweeper) (row col : Int)
    (h : ¬ ifCellValid g row col ∨ (getCell g row.toNat col.toNat).isShown = true) :
    showCellA cf fuel g row col = some g := by
  cases fuel with
  | zero => unfold showCellA; rw [if_pos h]
  | succ n => unfold showCellA; rw [if_pos h]

/-- Writing back the value a list already holds is a no-op. -/
theorem list_set_getD {α : Type} (l : List α) (i : Nat) (d : α) :
    l.set i (l.getD i d) = l := by
  apply List.ext_getElem?
  intro n
  rw [List.getElem?_set]
  by_cases h : i = n
  · subst h
    by_cases hl : i < l.length
    · simp [List.getD_eq_getElem?_getD, List.getElem?_eq_getElem hl, hl]
    · simp [hl, List.getElem?_eq_none (Nat.le_of_not_lt hl)]
  · simp [h]

/-- Writing back the stored cell with `setCell` is a no-op. -/
theorem setCell_self (g : Minesweeper) (r c : Nat) :
    setCell g r c (getCell g r c) = g := by
  unfold setCell getCell
  rw [list_set_getD, list_set_getD]

/-- An out-of-shape `setCell` is dropped. -/
theorem setCell_dropped (g : Minesweeper) (r c : Nat) (cell : Cell)
    (h : ¬(r < g.board.length ∧ c < (g.board.getD r []).length)) :
    setCell g r c cell = g := by
  unfold setCell
  by_cases hr : r < g.board.length
  · have hc : (g.board.getD r []).length ≤ c := Nat.le_of_not_lt (fun hc => h ⟨hr, hc⟩)
    rw [List.set_eq_of_length_le hc, list_set_getD]
  · rw [List.set_eq_of_length_le (Nat.le_of_not_lt hr)]

/-- An out-of-shape read gives the zero cell. -/
theorem getCell_oob (g : Minesweeper) (r c : Nat)
    (h : ¬(r < g.board.length ∧ c < (g.board.getD r []).length)) :
    getCell g r c = default := by
  unfold getCell
  by_cases hr : r < g.board.length
  · have hc : (g.board.getD r []).length ≤ c := Nat.le_of_not_lt (fun hc => h ⟨hr, hc⟩)
    rw [List.getD_eq_getElem?_getD (g.board.getD r []), List.getElem?_eq_none hc]
    rfl
  · have hrow : g.board.getD r [] = [] := by
      rw [List.getD_eq_getElem?_getD, List.getElem?_eq_none (Nat.le_of_not_lt hr)]
      rfl
    rw [hrow]
    rfl

/-- Reading after `setCell`: the written cell at the written in-shape
coordinate, otherwise the old value. -/
theorem getCell_setCell (g : Minesweeper) (r c : Nat) (cell : Cell) (p q : Nat) :
    getCell (setCell g r c cell) p q =
      if r = p ∧ c = q ∧ r < g.board.length ∧ c < (g.board.getD r []).length then cell
      else getCell g p q := by
  by_cases hshape : r < g.board.length ∧ c < (g.board.getD r []).length
  · by_cases hrp : r = p
    · subst hrp
      have hrow : (setCell g r c cell).board.getD r [] = (g.board.getD r []).set c cell := by
        unfold setCell
        simp [List.getD_eq_getElem?_getD, List.getElem?_set, hshape.1]
      by_cases hcq : c = q
      · subst hcq
        show ((setCell g r c cell).board.getD r []).getD c default = _
        rw [hrow, if_pos ⟨rfl, rfl, hshape.1, hshape.2⟩,
          List.getD_eq_getElem?_getD ((g.board.getD r []).set c cell), List.getElem?_set]
        have hs2 : c < (g.board[r]?.getD []).length := by
          rw [← List.getD_eq_getElem?_getD]
          exact hshape.2
        simp [hs2]
      · show ((setCell g r c cell).board.getD r []).getD q default = _
        rw [hrow, if_neg (fun hh => hcq hh.2.1),
          List.getD_eq_getElem?_getD ((g.board.getD r []).set c cell), List.getElem?_set,
          if_neg hcq, ← List.getD_eq_getElem?_getD]
        rfl
    · unfold getCell setCell
      simp [List.getD_eq_getElem?_getD, List.getElem?_set, hrp]
  · rw [setCell_dropped g r c cell hshape, if_neg]
    intro hh
    exact hshape ⟨hh.2.2.1, hh.2.2.2⟩

/-- Row lengths are unchanged by `setCell`. -/
theorem rowLen_setCell (g : Minesweeper) (r c : Nat) (cell : Cell) (i : Nat) :
    ((setCell g r c cell).board.getD i []).length = (g.board.getD i []).length := by
  unfold setCell
  by_cases hri : r = i
  · subst hri
    by_cases hr : r < g.board.length
    · simp [List.getD_eq_getElem?_getD, List.getElem?_set, hr]
    · rw [List.set_eq_of_length_le (Nat.le_of_not_lt hr)]
  · simp [List.getD_eq_getElem?_getD, List.getElem?_set, hri]

/-- Validity only depends on the dimensions. -/
theorem ifCellValid_congr {g g' : Minesweeper} (h1 : g'.rows = g.rows)
    (h2 : g'.cols = g.cols) (row col : Int) :
    ifCellValid g' row col ↔ ifCellValid g row col := by
  unfold ifCellValid
  rw [h1, h2]

/-- The adjacency count only depends on the dimensions and the mines. -/
theorem countNearbyMines_congr {g g' : Minesweeper} (h1 : g'.rows = g.rows)
    (h2 : g'.cols = g.cols)
    (hm : ∀ r c : Nat, (getCell g' r c).isMine = (getCell g r c).isMine) (row col : Int) :
    countNearbyMines g' row col = countNearbyMines g row col := by
  unfold countNearbyMines
  apply List.countP_congr
  intro d _
  have hv : decide (ifCellValid g' (row + d.1) (col + d.2)) =
      decide (ifCellValid g (row + d.1) (col + d.2)) :=
    decide_eq_decide.mpr (ifCellValid_congr h1 h2 _ _)
  rw [hv, hm]

theorem evolves_refl (cf : Bool) (g : Minesweeper) : Evolves cf g g :=
  ⟨rfl, rfl, rfl, fun _ => rfl, fun _ _ => rfl, fun _ _ => rfl, fun _ _ h => h,
    fun _ _ => Or.inl rfl, fun _ _ _ _ => rfl⟩

theorem evolves_trans {cf : Bool} {g g' g'' : Minesweeper}
    (h1 : Evolves cf g g') (h2 : Evolves cf g' g'') : Evolves cf g g'' := by
  have hcnt : ∀ row col, countNearbyMines g' row col = countNearbyMines g row col :=
    countNearbyMines_congr h1.rowsEq h1.colsEq h1.mineEq
  refine ⟨h2.rowsEq.trans h1.rowsEq, h2.colsEq.trans h1.colsEq, h2.lenEq.trans h1.lenEq,
    fun i => (h2.rowLenEq i).trans (h1.rowLenEq i),
    fun r c => (h2.mineEq r c).trans (h1.mineEq r c),
    fun r c => (h2.flagEq r c).trans (h1.flagEq r c),
    fun r c h => h2.shownLe r c (h1.shownLe r c h), ?_, ?_⟩
  · intro r c
    rcases h2.nearbyOr r c with h | h
    · rw [h]
      exact h1.nearbyOr r c
    · right
      rw [h]
      exact hcnt _ _
  · intro hcf r c hf
    have hf' : (getCell g' r c).isFlagged = true := (h1.flagEq r c).trans hf
    exact (h2.flagShown hcf r c hf').trans (h1.flagShown hcf r c hf)

/-- A single `setCell` whose written cell relates suitably to the old
cell is an evolution step. -/
theorem evolves_setCell_of (cf : Bool) (g : Minesweeper) (r c : Nat) (cell : Cell)
    (hmine : cell.isMine = (getCell g r c).isMine)
    (hflag : cell.isFlagged = (getCell g r c).isFlagged)
    (hshown : (getCell g r c).isShown = true → cell.isShown = true)
    (hnear : cell.nearbyMines = (getCell g r c).nearbyMines ∨
      cell.nearbyMines = countNearbyMines g (r : Int) (c : Int))
    (hfs : cf = true → (getCell g r c).isFlagged = true →
      cell.isShown = (getCell g r c).isShown) :
    Evolves cf g (setCell g r c cell) := by
  have hlen : (setCell g r c cell).board.length = g.board.length := by
    unfold setCell
    exact List.length_set ..
  refine ⟨rfl, rfl, hlen, rowLen_setCell g r c cell, ?_, ?_, ?_, ?_, ?_⟩
  · intro p q
    rw [getCell_setCell]
    by_cases h : r = p ∧ c = q ∧ r < g.board.length ∧ c < (g.board.getD r []).length
    · obtain ⟨h1, h2, h3, h4⟩ := h
      subst h1
      subst h2
      rw [if_pos ⟨rfl, rfl, h3, h4⟩]
      exact hmine
    · rw [if_neg h]
  · intro p q
    rw [getCell_setCell]
    by_cases h : r = p ∧ c = q ∧ r < g.board.length ∧ c < (g.board.getD r []).length
    · obtain ⟨h1, h2, h3, h4⟩ := h
      subst h1
      subst h2
      rw [if_pos ⟨rfl, rfl, h3, h4⟩]
      exact hflag
    · rw [if_neg h]
  · intro p q hs
    rw [getCell_setCell]
    by_cases h : r = p ∧ c = q ∧ r < g.board.length ∧ c < (g.board.getD r []).length
    · obtain ⟨h1, h2, h3, h4⟩ := h
      subst h1
      subst h2
      rw [if_pos ⟨rfl, rfl, h3, h4⟩]
      exact hshown hs
    · rw [if_neg h]
      exact hs
  · intro p q
    rw [getCell_setCell]
    by_cases h : r = p ∧ c = q ∧ r < g.board.length ∧ c < (g.board.getD r []).length
    · obtain ⟨h1, h2, h3, h4⟩ := h
      subst h1
      subst h2
      rw [if_pos ⟨rfl, rfl, h3, h4⟩]
      exact hnear
    · rw [if_neg h]
      exact Or.inl rfl
  · intro hcf p q hf
    rw [getCell_setCell]
    by_cases h : r = p ∧ c = q ∧ r < g.board.length ∧ c < (g.board.getD r []).length
    · obtain ⟨h1, h2, h3, h4⟩ := h
      subst h1
      subst h2
      rw [if_pos ⟨rfl, rfl, h3, h4⟩]
      exact hfs hcf hf
    · rw [if_neg h]

/-- The `IsShown` write is an evolution step. -/
theorem evolves_stepShow (cf : Bool) (g : Minesweeper) (r c : Nat) :
    Evolves cf g (stepShow cf g r c) := by
  unfold stepShow
  by_cases hcase : (cf && (getCell g r c).isFlagged) = true
  · rw [if_pos hcase]
    exact evolves_refl cf g
  · rw [if_neg hcase]
    refine evolves_setCell_of cf g r c _ rfl rfl (fun _ => rfl) (Or.inl rfl) ?_
    intro hcf hf
    exfalso
    rw [hcf, hf] at hcase
    exact hcase rfl

/-- The `NearbyMines` write is an evolution step. -/
theorem evolves_stepNearby (cf : Bool) (g : Minesweeper) (r c : Nat) (row col : Int)
    (hrow : (r : Int) = row) (hcol : (c : Int) = col) :
    Evolves cf g (stepNearby g r c row col) := by
  unfold stepNearby
  refine evolves_setCell_of cf g r c _ rfl rfl (fun h => h) ?_ (fun _ _ => rfl)
  right
  rw [hrow, hcol]

/-- Unfolding `showCellA` past the guard. -/
theorem showCellA_expand (cf : Bool) (n : Nat) (g : Minesweeper) (row col : Int)
    (hguard : ¬(¬ ifCellValid g row col ∨ (getCell g row.toNat col.toNat).isShown = true)) :
    showCellA cf (n + 1) g row col =
      if (getCell (stepNearby (stepShow cf g row.toNat col.toNat)
          row.toNat col.toNat row col) row.toNat col.toNat).nearbyMines = 0 then
        showNeighbors (showCellA cf n)
          (stepNearby (stepShow cf g row.toNat col.toNat) row.toNat col.toNat row col)
          deltas row col
      else some (stepNearby (stepShow cf g row.toNat col.toNat) row.toNat col.toNat row col) := by
  unfold showCellA
  rw [if_neg hguard]

/-- Monotonicity of the neighbour fold, given monotonicity of the call. -/
theorem evolves_showNeighbors_of {cf : Bool} {f : Minesweeper → Int → Int → Option Minesweeper}
    (hf : ∀ g row col g', f g row col = some g' → Evolves cf g g') :
    ∀ (ds : List (Int × Int)) (g : Minesweeper) (row col : Int) (g' : Minesweeper),
      showNeighbors f g ds row col = some g' → Evolves cf g g' := by
  intro ds
  induction ds with
  | nil =>
    intro g row col g' h
    unfold showNeighbors at h
    injection h with h
    subst h
    exact evolves_refl cf g
  | cons d rest ih =>
    intro g row col g' h
    unfold showNeighbors at h
    cases hc : f g (row + d.1) (col + d.2) with
    | none =>
      rw [hc] at h
      cases h
    | some g2 =>
      rw [hc] at h
      exact evolves_trans (hf _ _ _ _ hc) (ih _ _ _ _ h)

/-- Monotonicity: a completed `showCell` call is an evolution of the board. -/
theorem evolves_showCellA (cf : Bool) :
    ∀ (n : Nat) (g : Minesweeper) (row col : Int) (g' : Minesweeper),
      showCellA cf n g row col = some g' → Evolves cf g g' := by
  intro n
  induction n with
  | zero =>
    intro g row col g' h
    by_cases hguard : ¬ ifCellValid g row col ∨ (getCell g row.toNat col.toNat).isShown = true
    · rw [showCellA_of_guard cf 0 g row col hguard] at h
      injection h with h
      subst h
      exact evolves_refl cf g
    · unfold showCellA at h
      rw [if_neg hguard] at h
      cases h
  | succ n ih =>
    intro g row col g' h
    by_cases hguard : ¬ ifCellValid g row col ∨ (getCell g row.toNat col.toNat).isShown = true
    · rw [showCellA_of_guard cf (n + 1) g row col hguard] at h
      injection h with h
      subst h
      exact evolves_refl cf g
    · have hval : ifCellValid g row col := by
        rcases not_or.1 hguard with ⟨hv, -⟩
        exact not_not.1 hv
      have hrow : ((row.toNat : Int)) = row := Int.toNat_of_nonneg hval.1
      have hcol : ((col.toNat : Int)) = col := Int.toNat_of_nonneg hval.2.2.1
      rw [showCellA_expand cf n g row col hguard] at h
      have hg2 : Evolves cf g
          (stepNearby (stepShow cf g row.toNat col.toNat) row.toNat col.toNat row col) :=
        evolves_trans (evolves_stepShow cf g row.toNat col.toNat)
          (evolves_stepNearby cf (stepShow cf g row.toNat col.toNat)
            row.toNat col.toNat row col hrow hcol)
      by_cases hz : (getCell (stepNearby (stepShow cf g row.toNat col.toNat)
          row.toNat col.toNat row col) row.toNat col.toNat).nearbyMines = 0
      · rw [if_pos hz] at h
        exact evolves_trans hg2 (evolves_showNeighbors_of ih _ _ _ _ _ h)
      · rw [if_neg hz] at h
        injection h with h
        subst h
        exact hg2

/-- The scan returns `none` exactly when some scanned cell is a shown mine. -/
theorem scanShown_eq_none_iff (l : List Cell) :
    scanShown l = none ↔ ∃ cc ∈ l, cc.isShown = true ∧ cc.isMine = true := by
  induction l with
  | nil => simp [scanShown]
  | cons c rest ih =>
    by_cases hs : c.isShown = true
    · by_cases hm : c.isMine = true
      · simp [scanShown, hs, hm]
      · simp [scanShown, hs, hm, Option.map_eq_none', ih]
    · simp [scanShown, hs, ih]

/-- Once a shown mine occurs in the scanned prefix, the scan result is
`none` whatever cells follow: the loop short-circuits. -/
theorem scanShown_append_none (l l' : List Cell)
    (h : ∃ cc ∈ l, cc.isShown = true ∧ cc.isMine = true) :
    scanShown (l ++ l') = none := by
  induction l with
  | nil => simp at h
  | cons c rest ih =>
    rcases h with ⟨cc, hmem, hsm⟩
    rcases List.mem_cons.1 hmem with rfl | hmem'
    · simp [scanShown, hsm.1, hsm.2]
    · by_cases hs : c.isShown = true
      · by_cases hm : c.isMine = true
        · simp [scanShown, hs, hm]
        · simp [scanShown, hs, hm, Option.map_eq_none', ih ⟨cc, hmem', hsm⟩]
      · simpa [scanShown, hs] using ih ⟨cc, hmem', hsm⟩

/-- A cell is listed by `cellsOf` exactly when some in-range coordinate
pair reads it. -/
theorem mem_cellsOf {g : Minesweeper} {cc : Cell} :
    cc ∈ cellsOf g ↔
      ∃ r c : Nat, r < g.rows.toNat ∧ c < g.cols.toNat ∧ getCell g r c = cc := by
  simp only [cellsOf, List.mem_flatten, List.mem_map, List.mem_range]
  constructor
  · rintro ⟨l, ⟨r, hr, rfl⟩, hmem⟩
    rcases List.mem_map.1 hmem with ⟨c, hc, rfl⟩
    exact ⟨r, c, hr, List.mem_range.1 hc, rfl⟩
  · rintro ⟨r, c, hr, hc, rfl⟩
    exact ⟨_, ⟨r, hr, rfl⟩, List.mem_map.2 ⟨c, List.mem_range.2 hc, rfl⟩⟩

/-- The evaluator `isGameOver` reports a loss exactly when the scan hits a shown mine. -/
theorem isGameOver_eq_lost_iff (g : Minesweeper) (q : Int) :
    isGameOver g q = (true, false) ↔ scanShown (cellsOf g) = none := by
  unfold isGameOver
  cases h : scanShown (cellsOf g) with
  | none => simp
  | some k => by_cases hq : (k : Int) = q <;> simp [hq]

/-- The evaluator `isWinOrGameOver` reports a loss exactly when the scan hits a shown mine. -/
theorem isWinOrGameOver_eq_lost_iff (g : Minesweeper) (q : Int) :
    isWinOrGameOver g q = (true, false) ↔ scanShown (cellsOf g) = none := by
  unfold isWinOrGameOver
  cases h : scanShown (cellsOf g) with
  | none => simp
  | some k => by_cases hq : g.rows * g.cols - (k : Int) = q <;> simp [hq]

/-- A `setCell` whose written cell keeps `isMine` preserves every
cell's `isMine`. -/
theorem getCell_setCell_mine (g : Minesweeper) (r c : Nat) (cell : Cell)
    (hm : cell.isMine = (getCell g r c).isMine) (p q : Nat) :
    (getCell (setCell g r c cell) p q).isMine = (getCell g p q).isMine := by
  rw [getCell_setCell]
  by_cases h : r = p ∧ c = q ∧ r < g.board.length ∧ c < (g.board.getD r []).length
  · obtain ⟨h1, h2, h3, h4⟩ := h
    subst h1
    subst h2
    rw [if_pos ⟨rfl, rfl, h3, h4⟩]
    exact hm
  · rw [if_neg h]

/-- The toggle `flagCell` preserves every cell's `isMine`. -/
theorem getCell_flagCell_mine (g : Minesweeper) (row col : Int) (p q : Nat) :
    (getCell (flagCell g row col) p q).isMine = (getCell g p q).isMine := by
  unfold flagCell
  by_cases hv : ifCellValid g row col
  · rw [if_pos hv]
    apply getCell_setCell_mine
    rfl
  · rw [if_neg hv]

/-- Folding shown-writes over one row preserves every cell's `isMine`. -/
theorem mines_foldl_show_row (cs : List Nat) :
    ∀ (g : Minesweeper) (r p q : Nat),
      (getCell (cs.foldl (fun gc c =>
        setCell gc r c { getCell gc r c with isShown := true }) g) p q).isMine =
      (getCell g p q).isMine := by
  induction cs with
  | nil =>
    intro g r p q
    rfl
  | cons c rest ih =>
    intro g r p q
    rw [List.foldl_cons, ih]
    apply getCell_setCell_mine
    rfl

/-- The sweep `revealAll` preserves every cell's `isMine`. -/
theorem getCell_revealAll_mine (g : Minesweeper) (p q : Nat) :
    (getCell (revealAll g) p q).isMine = (getCell g p q).isMine := by
  unfold revealAll
  generalize List.range g.rows.toNat = rs
  generalize List.range g.cols.toNat = cs
  induction rs generalizing g with
  | nil => rfl
  | cons r rest ih =>
    rw [List.foldl_cons, ih, mines_foldl_show_row]

/-- C4: both game-status evaluators return lost exactly when some shown
cell of the board is a mine, and the scan short-circuits: any cells
after a shown mine cannot change the result. -/
theorem c4_lost_iff_shown_mine :
    (∀ (g : Minesweeper) (q : Int), isGameOver g q = (true, false) ↔
      ∃ r c : Nat, r < g.rows.toNat ∧ c < g.cols.toNat ∧
        (getCell g r c).isShown = true ∧ (getCell g r c).isMine = true) ∧
    (∀ (g : Minesweeper) (q : Int), isWinOrGameOver g q = (true, false) ↔
      ∃ r c : Nat, r < g.rows.toNat ∧ c < g.cols.toNat ∧
        (getCell g r c).isShown = true ∧ (getCell g r c).isMine = true) ∧
    (∀ l l' : List Cell, (∃ cc ∈ l, cc.isShown = true ∧ cc.isMine = true) →
      scanShown (l ++ l') = none) := by
  have key : ∀ g : Minesweeper, scanShown (cellsOf g) = none ↔
      ∃ r c : Nat, r < g.rows.toNat ∧ c < g.cols.toNat ∧
        (getCell g r c).isShown = true ∧ (getCell g r c).isMine = true := by
    intro g
    rw [scanShown_eq_none_iff]
    constructor
    · rintro ⟨cc, hmem, hsm⟩
      rcases mem_cellsOf.1 hmem with ⟨r, c, hr, hc, rfl⟩
      exact ⟨r, c, hr, hc, hsm⟩
    · rintro ⟨r, c, hr, hc, hsm⟩
      exact ⟨getCell g r c, mem_cellsOf.2 ⟨r, c, hr, hc, rfl⟩, hsm⟩
  exact ⟨fun g q => (isGameOver_eq_lost_iff g q).trans (key g),
    fun g q => (isWinOrGameOver_eq_lost_iff g q).trans (key g),
    scanShown_append_none⟩

/-- Witness for C4: on a concrete 2×2 board whose mine at (0,0) is
shown, both evaluators report lost, and a scan short-circuits past the
shown mine. -/
theorem c4_lost_iff_shown_mine_witness :
    isGameOver { board := [[⟨true, true, false, 0⟩, ⟨false, false, false, 0⟩],
                           [⟨false, false, false, 0⟩, ⟨false, false, false, 0⟩]]
                 rows := 2, cols := 2 } 1 = (true, false) ∧
    scanShown ([⟨true, true, false, 0⟩] ++ [⟨false, true, false, 3⟩]) = none :=
  ⟨(c4_lost_iff_shown_mine.1 _ 1).2 ⟨0, 0, by decide, by decide, by decide, by decide⟩,
    c4_lost_iff_shown_mine.2.2 _ _ ⟨⟨true, true, false, 0⟩, by decide, by decide, by decide⟩⟩

/-- C1 (code bug in the first variant): on `bogusWinBoard` with mine
quantity 1, `isGameOver` reports a win although two non-mine cells are
still hidden, because it compares the count of shown non-mine cells —
not total cells minus that count — with the mine quantity.  The second
variant's `isWinOrGameOver` reports the game as ongoing. -/
theorem c1_isGameOver_bogus_win :
    isGameOver bogusWinBoard 1 = (true, true) ∧
    (getCell bogusWinBoard 0 1).isMine = false ∧
    (getCell bogusWinBoard 0 1).isShown = false ∧
    isWinOrGameOver bogusWinBoard 1 = (false, false) := by decide

/-- C2 counterexample: the first variant of `showCell` marks a flagged
cell shown — on a 1×1 board whose flagged cell it reveals, the cell ends
up shown while still flagged. -/
theorem c2_flagged_cell_shown_by_showCell1 :
    Option.map (fun g => ((getCell g 0 0).isShown, (getCell g 0 0).isFlagged))
      (showCell1 2 flaggedOneBoard 0 0) = some (true, true) := by decide

/-- C7: invalid coordinates are silently ignored: both `showCell`
variants and `flagCell` return the board unchanged (and, being total,
signal no error). -/
theorem c7_invalid_coords_ignored (g : Minesweeper) (row col : Int) (fuel : Nat)
    (h : ¬ ifCellValid g row col) :
    showCell1 fuel g row col = some g ∧ showCell2 fuel g row col = some g ∧
      flagCell g row col = g := by
  refine ⟨showCellA_of_guard false fuel g row col (Or.inl h),
    showCellA_of_guard true fuel g row col (Or.inl h), ?_⟩
  unfold flagCell
  rw [if_neg h]

/-- Witness for C7: the coordinate (-1, 5) on a concrete 3×3 board. -/
theorem c7_invalid_coords_ignored_witness :
    showCell1 3 mine33Board (-1) 5 = some mine33Board ∧
      showCell2 3 mine33Board (-1) 5 = some mine33Board ∧
      flagCell mine33Board (-1) 5 = mine33Board :=
  c7_invalid_coords_ignored mine33Board (-1) 5 3 (by decide)

/-- C2 (amended): in the flag-checking variant `showCell2`, a cell that
is flagged is never marked shown by any sequence of `showCell` calls:
its `isShown` is unchanged and its flag remains set.  (The other
variant, `showCell1`, marks flagged cells shown; see the
counterexample.) -/
theorem c2_showCell2_never_shows_flagged (g g' : Minesweeper)
    (calls : List (Nat × Int × Int)) (p q : Nat)
    (h : runShows true g calls = some g') (hf : (getCell g p q).isFlagged = true) :
    (getCell g' p q).isShown = (getCell g p q).isShown ∧
      (getCell g' p q).isFlagged = true := by
  induction calls generalizing g with
  | nil =>
    unfold runShows at h
    injection h with h
    subst h
    exact ⟨rfl, hf⟩
  | cons t rest ih =>
    unfold runShows at h
    cases hc : showCellA true t.1 g t.2.1 t.2.2 with
    | none =>
      rw [hc] at h
      cases h
    | some g2 =>
      rw [hc] at h
      have he := evolves_showCellA true t.1 g t.2.1 t.2.2 g2 hc
      have hf2 : (getCell g2 p q).isFlagged = true := (he.flagEq p q).trans hf
      have hrest := ih g2 h hf2
      exact ⟨hrest.1.trans (he.flagShown rfl p q hf), hrest.2⟩

/-- Witness for C2 (amended): revealing (0,0) of `flagLeftBoard` — a
flagged zero-adjacency cell — leaves it unshown and flagged. -/
theorem c2_showCell2_never_shows_flagged_witness :
    (getCell flagLeftAfter 0 0).isShown = (getCell flagLeftBoard 0 0).isShown ∧
      (getCell flagLeftAfter 0 0).isFlagged = true :=
  c2_showCell2_never_shows_flagged flagLeftBoard flagLeftAfter [(4, 0, 0)] 0 0
    (by decide) (by decide)

/-- C8: once placed, mines are immutable — `showCell` (both variants),
`flagCell` and `revealAll` change no cell's `isMine` (the game-status
evaluators do not write the board at all in this embedding). -/
theorem c8_mines_immutable :
    (∀ (n : Nat) (g g' : Minesweeper) (row col : Int) (p q : Nat),
      showCell1 n g row col = some g' →
        (getCell g' p q).isMine = (getCell g p q).isMine) ∧
    (∀ (n : Nat) (g g' : Minesweeper) (row col : Int) (p q : Nat),
      showCell2 n g row col = some g' →
        (getCell g' p q).isMine = (getCell g p q).isMine) ∧
    (∀ (g : Minesweeper) (row col : Int) (p q : Nat),
      (getCell (flagCell g row col) p q).isMine = (getCell g p q).isMine) ∧
    (∀ (g : Minesweeper) (p q : Nat),
      (getCell (revealAll g) p q).isMine = (getCell g p q).isMine) :=
  ⟨fun n g g' row col p q h => (evolves_showCellA false n g row col g' h).mineEq p q,
    fun n g g' row col p q h => (evolves_showCellA true n g row col g' h).mineEq p q,
    getCell_flagCell_mine, getCell_revealAll_mine⟩

/-- Witness for C8: concrete reveal, flag and reveal-all steps on small
boards leave `isMine` unchanged. -/
theorem c8_mines_immutable_witness :
    (getCell flagLeftAfter 0 1).isMine = (getCell flagLeftBoard 0 1).isMine ∧
      (getCell (flagCell mine33Board 0 0) 0 0).isMine = (getCell mine33Board 0 0).isMine ∧
      (getCell (revealAll mine33Board) 0 0).isMine = (getCell mine33Board 0 0).isMine :=
  ⟨c8_mines_immutable.2.1 4 flagLeftBoard flagLeftAfter 0 0 0 1 (by decide),
    c8_mines_immutable.2.2.1 mine33Board 0 0 0 0,
    c8_mines_immutable.2.2.2 mine33Board 0 0⟩

/-- Stability of the neighbour fold: if a fold completed from `s` to
`s'` and `t` extends `s'`, re-running the fold on `t` fixes `t`. -/
theorem stable_showNeighbors (cf : Bool) (n : Nat)
    (ihstable : ∀ s s' t row col, showCellA cf n s row col = some s' → Evolves cf s' t →
      showCellA cf n t row col = some t) :
    ∀ (ds : List (Int × Int)) (s s' t : Minesweeper) (row col : Int),
      showNeighbors (showCellA cf n) s ds row col = some s' → Evolves cf s' t →
      showNeighbors (showCellA cf n) t ds row col = some t := by
  intro ds
  induction ds with
  | nil =>
    intro s s' t row col h het
    rfl
  | cons d rest ih =>
    intro s s' t row col h het
    unfold showNeighbors at h ⊢
    cases hc : showCellA cf n s (row + d.1) (col + d.2) with
    | none =>
      rw [hc] at h
      cases h
    | some s3 =>
      rw [hc] at h
      have hs3s' : Evolves cf s3 s' :=
        evolves_showNeighbors_of (evolves_showCellA cf n) rest s3 row col s' h
      have hcall : showCellA cf n t (row + d.1) (col + d.2) = some t :=
        ihstable s s3 t _ _ hc (evolves_trans hs3s' het)
      rw [hcall]
      exact ih s3 s' t row col h het

/-- Stability of `showCell`: if a call completed from `s` to `s'` and
`t` extends `s'`, the same call on `t` completes and fixes `t`. -/
theorem stable_showCellA (cf : Bool) :
    ∀ (n : Nat) (s s' t : Minesweeper) (row col : Int),
      showCellA cf n s row col = some s' → Evolves cf s' t →
      showCellA cf n t row col = some t := by
  intro n
  induction n with
  | zero =>
    intro s s' t row col h het
    by_cases hgt : ¬ ifCellValid t row col ∨ (getCell t row.toNat col.toNat).isShown = true
    · exact showCellA_of_guard cf 0 t row col hgt
    · by_cases hgs : ¬ ifCellValid s row col ∨ (getCell s row.toNat col.toNat).isShown = true
      · rw [showCellA_of_guard cf 0 s row col hgs] at h
        injection h with h
        subst h
        rcases hgs with hv | hsh
        · exact absurd (Or.inl (fun hvt =>
            hv ((ifCellValid_congr het.rowsEq het.colsEq row col).mp hvt))) hgt
        · exact absurd (Or.inr (het.shownLe _ _ hsh)) hgt
      · unfold showCellA at h
        rw [if_neg hgs] at h
        cases h
  | succ n ih =>
    intro s s' t row col h het
    by_cases hgt : ¬ ifCellValid t row col ∨ (getCell t row.toNat col.toNat).isShown = true
    · exact showCellA_of_guard cf (n + 1) t row col hgt
    · have hvalt : ifCellValid t row col := by
        rcases not_or.1 hgt with ⟨hv, -⟩
        exact not_not.1 hv
      have hsht : ¬ (getCell t row.toNat col.toNat).isShown = true := (not_or.1 hgt).2
      by_cases hgs : ¬ ifCellValid s row col ∨ (getCell s row.toNat col.toNat).isShown = true
      · rw [showCellA_of_guard cf (n + 1) s row col hgs] at h
        injection h with h
        subst h
        rcases hgs with hv | hsh
        · exact absurd (Or.inl (fun hvt =>
            hv ((ifCellValid_congr het.rowsEq het.colsEq row col).mp hvt))) hgt
        · exact absurd (Or.inr (het.shownLe _ _ hsh)) hgt
      · -- both guards are open: the call expanded from s
        have hvals : ifCellValid s row col := by
          rcases not_or.1 hgs with ⟨hv, -⟩
          exact not_not.1 hv
        have hrowcast : ((row.toNat : Int)) = row := Int.toNat_of_nonneg hvals.1
        have hcolcast : ((col.toNat : Int)) = col := Int.toNat_of_nonneg hvals.2.2.1
        have hm : Evolves cf s s' := evolves_showCellA cf (n + 1) s row col s' h
        have hst : Evolves cf s t := evolves_trans hm het
        rw [showCellA_expand cf n s row col hgs] at h
        -- the board after the two writes of the expansion
        have hs2s' : Evolves cf
            (stepNearby (stepShow cf s row.toNat col.toNat) row.toNat col.toNat row col) s' := by
          by_cases hz0 : (getCell (stepNearby (stepShow cf s row.toNat col.toNat)
              row.toNat col.toNat row col) row.toNat col.toNat).nearbyMines = 0
          · rw [if_pos hz0] at h
            exact evolves_showNeighbors_of (evolves_showCellA cf n) _ _ _ _ _ h
          · rw [if_neg hz0] at h
            injection h with h
            exact h ▸ evolves_refl cf _
        -- the IsShown write cannot have landed, else t would show the cell
        have hsA : stepShow cf s row.toNat col.toNat = s := by
          by_cases hA : (cf && (getCell s row.toNat col.toNat).isFlagged) = true
          · unfold stepShow
            rw [if_pos hA]
          · by_cases hshape : row.toNat < s.board.length ∧
                col.toNat < (s.board.getD row.toNat []).length
            · exfalso
              have hsAv : getCell (stepShow cf s row.toNat col.toNat) row.toNat col.toNat =
                  { getCell s row.toNat col.toNat with isShown := true } := by
                unfold stepShow
                rw [if_neg hA, getCell_setCell, if_pos ⟨rfl, rfl, hshape.1, hshape.2⟩]
              have hshA : (getCell (stepShow cf s row.toNat col.toNat)
                  row.toNat col.toNat).isShown = true := by
                rw [hsAv]
              have hsAs2 : Evolves cf (stepShow cf s row.toNat col.toNat)
                  (stepNearby (stepShow cf s row.toNat col.toNat) row.toNat col.toNat row col) :=
                evolves_stepNearby cf _ row.toNat col.toNat row col hrowcast hcolcast
              exact hsht (het.shownLe _ _ (hs2s'.shownLe _ _ (hsAs2.shownLe _ _ hshA)))
            · unfold stepShow
              rw [if_neg hA]
              exact setCell_dropped s row.toNat col.toNat _ hshape
        rw [hsA] at h hs2s'
        by_cases hshape : row.toNat < s.board.length ∧
            col.toNat < (s.board.getD row.toNat []).length
        · -- in shape: the NearbyMines write landed and persisted to t
          have hs2v : getCell (stepNearby s row.toNat col.toNat row col) row.toNat col.toNat =
              { getCell s row.toNat col.toNat with
                nearbyMines := countNearbyMines s row col } := by
            unfold stepNearby
            rw [getCell_setCell, if_pos ⟨rfl, rfl, hshape.1, hshape.2⟩]
          have hss2 : Evolves cf s (stepNearby s row.toNat col.toNat row col) :=
            evolves_stepNearby cf s row.toNat col.toNat row col hrowcast hcolcast
          have hnears' : (getCell s' row.toNat col.toNat).nearbyMines =
              countNearbyMines s row col := by
            rcases hs2s'.nearbyOr row.toNat col.toNat with hx | hx
            · rw [hx, hs2v]
            · rw [hx, countNearbyMines_congr hss2.rowsEq hss2.colsEq hss2.mineEq,
                hrowcast, hcolcast]
          have hneart : (getCell t row.toNat col.toNat).nearbyMines =
              countNearbyMines s row col := by
            rcases het.nearbyOr row.toNat col.toNat with hx | hx
            · rw [hx, hnears']
            · rw [hx, countNearbyMines_congr hm.rowsEq hm.colsEq hm.mineEq,
                hrowcast, hcolcast]
          -- in the surviving case the cell is flagged (or the flag check is off the path)
          have htA : stepShow cf t row.toNat col.toNat = t := by
            unfold stepShow
            have hAs : (cf && (getCell s row.toNat col.toNat).isFlagged) = true := by
              by_contra hA
              have h1 : stepShow cf s row.toNat col.toNat =
                  setCell s row.toNat col.toNat
                    { getCell s row.toNat col.toNat with isShown := true } := by
                unfold stepShow
                rw [if_neg hA]
              rw [h1] at hsA
              have := getCell_setCell s row.toNat col.toNat
                { getCell s row.toNat col.toNat with isShown := true }
                row.toNat col.toNat
              rw [hsA, if_pos ⟨rfl, rfl, hshape.1, hshape.2⟩] at this
              have hshs : (getCell s row.toNat col.toNat).isShown = true := by
                rw [this]
              exact hsht (hst.shownLe _ _ hshs)
            rw [hst.flagEq row.toNat col.toNat, if_pos hAs]
          have ht2 : stepNearby t row.toNat col.toNat row col = t := by
            unfold stepNearby
            rw [countNearbyMines_congr hst.rowsEq hst.colsEq hst.mineEq row col, ← hneart]
            exact setCell_self t row.toNat col.toNat
          rw [showCellA_expand cf n t row col hgt, htA, ht2, hneart]
          rw [hs2v] at h
          by_cases hz : countNearbyMines s row col = 0
          · rw [if_pos hz] at h ⊢
            exact stable_showNeighbors cf n ih deltas
              (stepNearby s row.toNat col.toNat row col) s' t row col h het
          · rw [if_neg hz]
        · -- out of shape: both writes are dropped on both boards
          have hs2s : stepNearby s row.toNat col.toNat row col = s := by
            unfold stepNearby
            exact setCell_dropped s row.toNat col.toNat _ hshape
          rw [hs2s] at h hs2s'
          have hdefs : getCell s row.toNat col.toNat = default :=
            getCell_oob s row.toNat col.toNat hshape
          have hzs : (getCell s row.toNat col.toNat).nearbyMines = 0 := by
            rw [hdefs]
            rfl
          rw [if_pos hzs] at h
          have hoobt : ¬(row.toNat < t.board.length ∧
              col.toNat < (t.board.getD row.toNat []).length) := by
            rw [hst.lenEq, hst.rowLenEq]
            exact hshape
          have htA : stepShow cf t row.toNat col.toNat = t := by
            unfold stepShow
            by_cases hft : (cf && (getCell t row.toNat col.toNat).isFlagged) = true
            · rw [if_pos hft]
            · rw [if_neg hft]
              exact setCell_dropped t row.toNat col.toNat _ hoobt
          have ht2 : stepNearby t row.toNat col.toNat row col = t := by
            unfold stepNearby
            exact setCell_dropped t row.toNat col.toNat _ hoobt
          have hzt : (getCell t row.toNat col.toNat).nearbyMines = 0 := by
            rw [getCell_oob t row.toNat col.toNat hoobt]
            rfl
          rw [showCellA_expand cf n t row col hgt, htA, ht2, if_pos hzt]
          exact stable_showNeighbors cf n ih deltas s s' t row col h het

/-- C6: `showCell` is idempotent — whenever a call completes, running
the same call again on the resulting board completes and leaves the
board unchanged (both variants). -/
theorem c6_showCell_idempotent :
    (∀ (n : Nat) (g g1 : Minesweeper) (row col : Int),
      showCell1 n g row col = some g1 → showCell1 n g1 row col = some g1) ∧
    (∀ (n : Nat) (g g1 : Minesweeper) (row col : Int),
      showCell2 n g row col = some g1 → showCell2 n g1 row col = some g1) :=
  ⟨fun n g g1 row col h => stable_showCellA false n g g1 g1 row col h (evolves_refl false g1),
    fun n g g1 row col h => stable_showCellA true n g g1 g1 row col h (evolves_refl true g1)⟩

/-- Witness for C6: concrete second calls on a 1×1 board and on a 1×2
board with a flagged cell fix the board produced by the first call. -/
theorem c6_showCell_idempotent_witness :
    showCell1 2 oneCellShown 0 0 = some oneCellShown ∧
      showCell2 4 flagLeftAfter 0 0 = some flagLeftAfter :=
  ⟨c6_showCell_idempotent.1 2 oneCellBoard oneCellShown 0 0 (by decide),
    c6_showCell_idempotent.2 4 flagLeftBoard flagLeftAfter 0 0 (by decide)⟩

/-- Membership in the row-major coordinate list. -/
theorem mem_allCoords {rows cols : Nat} {rc : Nat × Nat} :
    rc ∈ allCoords rows cols ↔ rc.1 < rows ∧ rc.2 < cols := by
  obtain ⟨a, b⟩ := rc
  simp only [allCoords, List.mem_flatten, List.mem_map, List.mem_range]
  constructor
  · rintro ⟨l, ⟨r, hr, rfl⟩, hmem⟩
    rcases List.mem_map.1 hmem with ⟨c, hc, hab⟩
    injection hab with h1 h2
    subst h1
    subst h2
    exact ⟨hr, List.mem_range.1 hc⟩
  · rintro ⟨ha, hb⟩
    exact ⟨_, ⟨a, ha, rfl⟩, List.mem_map.2 ⟨b, List.mem_range.2 hb, rfl⟩⟩

/-- The row-major coordinate list has no duplicates. -/
theorem allCoords_nodup (rows cols : Nat) : (allCoords rows cols).Nodup := by
  have heq : allCoords rows cols = (List.range rows) ×ˢ (List.range cols) := by
    simp [allCoords, List.product, List.flatMap_def, SProd.sprod]
  rw [heq]
  exact List.Nodup.product (List.nodup_range rows) (List.nodup_range cols)

/-- Counting with two predicates that agree except at one listed element,
where the first holds and the second fails: the first count is one more. -/
theorem countP_pred_flip {α : Type} (l : List α) (p q : α → Bool) (x : α)
    (hx : x ∈ l) (hnd : l.Nodup) (hpx : p x = true) (hqx : q x = false)
    (hother : ∀ y ∈ l, y ≠ x → p y = q y) :
    List.countP p l = List.countP q l + 1 := by
  induction l with
  | nil => cases hx
  | cons a rest ih =>
    rcases List.mem_cons.1 hx with rfl | hmem
    · rw [List.countP_cons, List.countP_cons, hpx, hqx]
      have hagree : List.countP p rest = List.countP q rest := by
        apply List.countP_congr
        intro y hy
        have hne : y ≠ x := fun hyx => (List.nodup_cons.1 hnd).1 (by rw [← hyx]; exact hy)
        rw [hother y (List.mem_cons_of_mem _ hy) hne]
      rw [hagree]
      simp
    · have hne : a ≠ x := fun hax => (List.nodup_cons.1 hnd).1 (by rw [hax]; exact hmem)
      have hrest : ∀ y ∈ rest, y ≠ x → p y = q y :=
        fun y hy => hother y (List.mem_cons_of_mem _ hy)
      rw [List.countP_cons, List.countP_cons,
        hother a (List.mem_cons_self a rest) hne,
        ih hmem (List.nodup_cons.1 hnd).2 hrest]
      omega

/-- Well-formedness transfers along an evolution. -/
theorem wf_evolves {cf : Bool} {g g' : Minesweeper} (he : Evolves cf g g') (hw : Wf g) :
    Wf g' := by
  refine ⟨?_, ?_, ?_, ?_⟩
  · rw [he.rowsEq]
    exact hw.1
  · rw [he.colsEq]
    exact hw.2.1
  · rw [he.lenEq, he.rowsEq]
    exact hw.2.2.1
  · intro row hrow
    rcases List.mem_iff_getElem.1 hrow with ⟨i, hi, rfl⟩
    have h1 : g'.board[i] = g'.board.getD i [] := by
      rw [List.getD_eq_getElem?_getD, List.getElem?_eq_getElem hi]
      rfl
    have hig : i < g.board.length := by
      rw [← he.lenEq]
      exact hi
    have h2 : g.board.getD i [] ∈ g.board := by
      rw [List.getD_eq_getElem?_getD, List.getElem?_eq_getElem hig]
      exact List.getElem_mem hig
    rw [h1, he.rowLenEq i, he.colsEq]
    exact hw.2.2.2 _ h2

/-- A valid coordinate on a well-formed board is within the list shape. -/
theorem shape_of_valid {g : Minesweeper} (hw : Wf g) {row col : Int}
    (hv : ifCellValid g row col) :
    row.toNat < g.board.length ∧ col.toNat < (g.board.getD row.toNat []).length := by
  have hr : row.toNat < g.rows.toNat :=
    (Int.toNat_lt_toNat (lt_of_le_of_lt hv.1 hv.2.1)).2 hv.2.1
  have hrn : row.toNat < g.board.length := by
    rw [hw.2.2.1]
    exact hr
  refine ⟨hrn, ?_⟩
  have hrowmem : g.board.getD row.toNat [] ∈ g.board := by
    rw [List.getD_eq_getElem?_getD, List.getElem?_eq_getElem hrn]
    exact List.getElem_mem hrn
  rw [hw.2.2.2 _ hrowmem]
  exact (Int.toNat_lt_toNat (lt_of_le_of_lt hv.2.2.1 hv.2.2.2)).2 hv.2.2.2

/-- A valid coordinate indexes the coordinate list. -/
theorem valid_mem_allCoords {g : Minesweeper} {row col : Int}
    (hv : ifCellValid g row col) :
    (row.toNat, col.toNat) ∈ allCoords g.rows.toNat g.cols.toNat :=
  mem_allCoords.2 ⟨(Int.toNat_lt_toNat (lt_of_le_of_lt hv.1 hv.2.1)).2 hv.2.1,
    (Int.toNat_lt_toNat (lt_of_le_of_lt hv.2.2.1 hv.2.2.2)).2 hv.2.2.2⟩

/-- The count of hidden cells never grows along an evolution. -/
theorem unshownCount_le_of_evolves {cf : Bool} {g g' : Minesweeper}
    (he : Evolves cf g g') : unshownCount g' ≤ unshownCount g := by
  unfold unshownCount
  rw [he.rowsEq, he.colsEq]
  apply List.countP_mono_left
  intro x _ hx
  cases hs : (getCell g x.1 x.2).isShown with
  | false => simp
  | true =>
    rw [he.shownLe x.1 x.2 hs] at hx
    simp at hx

/-- The `NearbyMines` write does not change the count of hidden cells. -/
theorem unshownCount_stepNearby (g : Minesweeper) (r c : Nat) (row col : Int) :
    unshownCount (stepNearby g r c row col) = unshownCount g := by
  unfold unshownCount stepNearby
  apply List.countP_congr
  intro y _
  have hsame : (getCell (setCell g r c
      { getCell g r c with nearbyMines := countNearbyMines g row col }) y.1 y.2).isShown =
      (getCell g y.1 y.2).isShown := by
    rw [getCell_setCell]
    by_cases h : r = y.1 ∧ c = y.2 ∧ r < g.board.length ∧ c < (g.board.getD r []).length
    · obtain ⟨h1, h2, h3, h4⟩ := h
      rw [if_pos ⟨h1, h2, h3, h4⟩, ← h1, ← h2]
    · rw [if_neg h]
  rw [hsame]

/-- A landing `IsShown` write on a hidden cell decreases the count of
hidden cells by exactly one. -/
theorem unshownCount_setShown {g : Minesweeper} {r c : Nat}
    (hshape : r < g.board.length ∧ c < (g.board.getD r []).length)
    (hmem : (r, c) ∈ allCoords g.rows.toNat g.cols.toNat)
    (hunshown : (getCell g r c).isShown = false) :
    unshownCount g =
      unshownCount (setCell g r c { getCell g r c with isShown := true }) + 1 := by
  unfold unshownCount
  apply countP_pred_flip _ _ _ (r, c) hmem (allCoords_nodup _ _)
  · rw [hunshown]
    rfl
  · have : (getCell (setCell g r c { getCell g r c with isShown := true }) r c).isShown =
        true := by
      rw [getCell_setCell, if_pos ⟨rfl, rfl, hshape.1, hshape.2⟩]
    rw [this]
    rfl
  · intro y _ hne
    have : (getCell (setCell g r c { getCell g r c with isShown := true }) y.1 y.2) =
        getCell g y.1 y.2 := by
      rw [getCell_setCell, if_neg]
      intro hh
      exact hne (by
        obtain ⟨a, b⟩ := y
        simp only [Prod.mk.injEq]
        exact ⟨hh.1.symm, hh.2.1.symm⟩)
    rw [this]

/-- A flag-free board has no flagged cell at any coordinate. -/
theorem noFlags_getCell {g : Minesweeper} (h : NoFlags g) (r c : Nat) :
    (getCell g r c).isFlagged = false := by
  by_cases hshape : r < g.board.length ∧ c < (g.board.getD r []).length
  · have hrowmem : g.board.getD r [] ∈ g.board := by
      rw [List.getD_eq_getElem?_getD, List.getElem?_eq_getElem hshape.1]
      exact List.getElem_mem hshape.1
    have hcellmem : getCell g r c ∈ g.board.getD r [] := by
      unfold getCell
      rw [List.getD_eq_getElem?_getD (g.board.getD r []),
        List.getElem?_eq_getElem hshape.2]
      exact List.getElem_mem hshape.2
    exact h _ hrowmem _ hcellmem
  · rw [getCell_oob g r c hshape]
    rfl

/-- Termination of the neighbour fold, given termination of the call at
fuel `n` for every board with fewer than `n` hidden cells. -/
theorem showNeighbors_term (cf : Bool) (n : Nat)
    (ihterm : ∀ (g : Minesweeper) (row col : Int), Wf g →
      (cf = true → ∀ r c : Nat, (getCell g r c).isFlagged = false) →
      unshownCount g < n → (showCellA cf n g row col).isSome = true) :
    ∀ (ds : List (Int × Int)) (g : Minesweeper) (row col : Int), Wf g →
      (cf = true → ∀ r c : Nat, (getCell g r c).isFlagged = false) →
      unshownCount g < n →
      (showNeighbors (showCellA cf n) g ds row col).isSome = true := by
  intro ds
  induction ds with
  | nil =>
    intro g row col _ _ _
    rfl
  | cons d rest ih =>
    intro g row col hw hf hc
    unfold showNeighbors
    cases hcall : showCellA cf n g (row + d.1) (col + d.2) with
    | none =>
      exfalso
      have hsome := ihterm g (row + d.1) (col + d.2) hw hf hc
      rw [hcall] at hsome
      simp at hsome
    | some g3 =>
      have he := evolves_showCellA cf n g (row + d.1) (col + d.2) g3 hcall
      exact ih g3 row col (wf_evolves he hw)
        (fun hcf r c => (he.flagEq r c).trans (hf hcf r c))
        (lt_of_le_of_lt (unshownCount_le_of_evolves he) hc)

/-- Fuel exceeding the number of hidden cells suffices: the reveal
terminates on well-formed boards (for the flag-checking variant, on
boards with no flagged cell). -/
theorem showCellA_term (cf : Bool) :
    ∀ (n : Nat) (g : Minesweeper) (row col : Int), Wf g →
      (cf = true → ∀ r c : Nat, (getCell g r c).isFlagged = false) →
      unshownCount g < n → (showCellA cf n g row col).isSome = true := by
  intro n
  induction n with
  | zero =>
    intro g row col _ _ hc
    omega
  | succ n ih =>
    intro g row col hw hf hc
    by_cases hguard : ¬ ifCellValid g row col ∨ (getCell g row.toNat col.toNat).isShown = true
    · rw [showCellA_of_guard cf (n + 1) g row col hguard]
      rfl
    · have hvals : ifCellValid g row col := by
        rcases not_or.1 hguard with ⟨hv, -⟩
        exact not_not.1 hv
      have hrowcast : ((row.toNat : Int)) = row := Int.toNat_of_nonneg hvals.1
      have hcolcast : ((col.toNat : Int)) = col := Int.toNat_of_nonneg hvals.2.2.1
      have hsh : (getCell g row.toNat col.toNat).isShown = false := by
        cases hv : (getCell g row.toNat col.toNat).isShown with
        | false => rfl
        | true => exact absurd hv (not_or.1 hguard).2
      have hshape := shape_of_valid hw hvals
      have hA : (cf && (getCell g row.toNat col.toNat).isFlagged) = false := by
        cases cf with
        | false => rfl
        | true =>
          rw [hf rfl row.toNat col.toNat]
          rfl
      have hgA : stepShow cf g row.toNat col.toNat =
          setCell g row.toNat col.toNat
            { getCell g row.toNat col.toNat with isShown := true } := by
        unfold stepShow
        rw [if_neg (by rw [hA]; exact Bool.false_ne_true)]
      have hdec : unshownCount g = unshownCount (stepShow cf g row.toNat col.toNat) + 1 := by
        rw [hgA]
        exact unshownCount_setShown hshape (valid_mem_allCoords hvals) hsh
      have heA : Evolves cf g (stepShow cf g row.toNat col.toNat) :=
        evolves_stepShow cf g row.toNat col.toNat
      have he2 : Evolves cf (stepShow cf g row.toNat col.toNat)
          (stepNearby (stepShow cf g row.toNat col.toNat) row.toNat col.toNat row col) :=
        evolves_stepNearby cf _ row.toNat col.toNat row col hrowcast hcolcast
      have hw2 : Wf (stepNearby (stepShow cf g row.toNat col.toNat)
          row.toNat col.toNat row col) :=
        wf_evolves he2 (wf_evolves heA hw)
      have hf2 : cf = true → ∀ r c : Nat,
          (getCell (stepNearby (stepShow cf g row.toNat col.toNat)
            row.toNat col.toNat row col) r c).isFlagged = false :=
        fun hcf r c => (he2.flagEq r c).trans ((heA.flagEq r c).trans (hf hcf r c))
      have hc2 : unshownCount (stepNearby (stepShow cf g row.toNat col.toNat)
          row.toNat col.toNat row col) < n := by
        rw [unshownCount_stepNearby]
        omega
      rw [showCellA_expand cf n g row col hguard]
      by_cases hz : (getCell (stepNearby (stepShow cf g row.toNat col.toNat)
          row.toNat col.toNat row col) row.toNat col.toNat).nearbyMines = 0
      · rw [if_pos hz]
        exact showNeighbors_term cf n ih deltas _ row col hw2 hf2 hc2
      · rw [if_neg hz]
        rfl

/-- Fold step when the head call completes. -/
theorem showNeighbors_cons_some {f : Minesweeper → Int → Int → Option Minesweeper}
    {g g2 : Minesweeper} {d : Int × Int} {rest : List (Int × Int)} {row col : Int}
    (h : f g (row + d.1) (col + d.2) = some g2) :
    showNeighbors f g (d :: rest) row col = showNeighbors f g2 rest row col := by
  conv_lhs => unfold showNeighbors
  rw [h]

/-- Fold step when the head call diverges. -/
theorem showNeighbors_cons_none {f : Minesweeper → Int → Int → Option Minesweeper}
    {g : Minesweeper} {d : Int × Int} {rest : List (Int × Int)} {row col : Int}
    (h : f g (row + d.1) (col + d.2) = none) :
    showNeighbors f g (d :: rest) row col = none := by
  conv_lhs => unfold showNeighbors
  rw [h]

/-- On the 1×2 board whose two mine-free cells are both flagged, the
flag-checking `showCell` exhausts any fuel: the two flagged cells keep
recursing into each other because neither ever becomes shown. -/
theorem flaggedPair_no_fuel (n : Nat) :
    showCellA true n flaggedPairBoard 0 0 = none ∧
      showCellA true n flaggedPairBoard 0 1 = none := by
  induction n with
  | zero => exact ⟨by decide, by decide⟩
  | succ n ih =>
    constructor
    · have key : showCellA true (n + 1) flaggedPairBoard 0 0 =
          showNeighbors (showCellA true n) flaggedPairBoard deltas 0 0 := by
        unfold showCellA
        rw [if_neg (by decide), if_pos (by decide)]
        rfl
      rw [key, show deltas = [(-1, -1), (-1, 0), (-1, 1), (0, -1), (0, 1),
        (1, -1), (1, 0), (1, 1)] from rfl]
      have hg1 : showCellA true n flaggedPairBoard ((0 : Int) + (-1)) ((0 : Int) + (-1)) =
          some flaggedPairBoard := showCellA_of_guard true n _ _ _ (Or.inl (by decide))
      have hg2 : showCellA true n flaggedPairBoard ((0 : Int) + (-1)) ((0 : Int) + 0) =
          some flaggedPairBoard := showCellA_of_guard true n _ _ _ (Or.inl (by decide))
      have hg3 : showCellA true n flaggedPairBoard ((0 : Int) + (-1)) ((0 : Int) + 1) =
          some flaggedPairBoard := showCellA_of_guard true n _ _ _ (Or.inl (by decide))
      have hg4 : showCellA true n flaggedPairBoard ((0 : Int) + 0) ((0 : Int) + (-1)) =
          some flaggedPairBoard := showCellA_of_guard true n _ _ _ (Or.inl (by decide))
      have hg5 : showCellA true n flaggedPairBoard ((0 : Int) + 0) ((0 : Int) + 1) =
          none := ih.2
      rw [showNeighbors_cons_some hg1, showNeighbors_cons_some hg2,
        showNeighbors_cons_some hg3, showNeighbors_cons_some hg4,
        showNeighbors_cons_none hg5]
    · have key : showCellA true (n + 1) flaggedPairBoard 0 1 =
          showNeighbors (showCellA true n) flaggedPairBoard deltas 0 1 := by
        unfold showCellA
        rw [if_neg (by decide), if_pos (by decide)]
        rfl
      rw [key, show deltas = [(-1, -1), (-1, 0), (-1, 1), (0, -1), (0, 1),
        (1, -1), (1, 0), (1, 1)] from rfl]
      have hg1 : showCellA true n flaggedPairBoard ((0 : Int) + (-1)) ((1 : Int) + (-1)) =
          some flaggedPairBoard := showCellA_of_guard true n _ _ _ (Or.inl (by decide))
      have hg2 : showCellA true n flaggedPairBoard ((0 : Int) + (-1)) ((1 : Int) + 0) =
          some flaggedPairBoard := showCellA_of_guard true n _ _ _ (Or.inl (by decide))
      have hg3 : showCellA true n flaggedPairBoard ((0 : Int) + (-1)) ((1 : Int) + 1) =
          some flaggedPairBoard := showCellA_of_guard true n _ _ _ (Or.inl (by decide))
      have hg4 : showCellA true n flaggedPairBoard ((0 : Int) + 0) ((1 : Int) + (-1)) =
          none := ih.1
      rw [showNeighbors_cons_some hg1, showNeighbors_cons_some hg2,
        showNeighbors_cons_some hg3, showNeighbors_cons_none hg4]

/-- C3 counterexample: on the 1×2 mine-free board with both cells
flagged, the flag-checking `showCell` at (0,0) never terminates — no
amount of fuel completes the recursion, because neither flagged cell is
ever marked shown and each keeps flooding into the other. -/
theorem c3_flood_nonterminating_counterexample :
    ¬ ∃ n : Nat, (showCell2 n flaggedPairBoard 0 0).isSome = true := by
  rintro ⟨n, hn⟩
  have hnone : showCellA true n flaggedPairBoard 0 0 = none := (flaggedPair_no_fuel n).1
  have hn' : (showCellA true n flaggedPairBoard 0 0).isSome = true := hn
  rw [hnone] at hn'
  simp at hn'

/-- C3 (amended): on well-formed boards the flood reveal of the
variant without a flag check terminates (fuel one more than the number
of hidden cells always completes), the flag-checking variant terminates
whenever no cell is flagged, and `isShown` never reverts — each cell is
revealed at most once. -/
theorem c3_flood_terminates :
    (∀ (g : Minesweeper) (row col : Int), Wf g →
      (showCell1 (unshownCount g + 1) g row col).isSome = true) ∧
    (∀ (g : Minesweeper) (row col : Int), Wf g → NoFlags g →
      (showCell2 (unshownCount g + 1) g row col).isSome = true) ∧
    (∀ (n : Nat) (g g' : Minesweeper) (row col : Int) (p q : Nat),
      showCell1 n g row col = some g' →
        (getCell g p q).isShown = true → (getCell g' p q).isShown = true) ∧
    (∀ (n : Nat) (g g' : Minesweeper) (row col : Int) (p q : Nat),
      showCell2 n g row col = some g' →
        (getCell g p q).isShown = true → (getCell g' p q).isShown = true) :=
  ⟨fun g row col hw =>
      showCellA_term false _ g row col hw
        (fun hcf => absurd hcf Bool.false_ne_true) (Nat.lt_succ_self _),
    fun g row col hw hnf =>
      showCellA_term true _ g row col hw
        (fun _ => noFlags_getCell hnf) (Nat.lt_succ_self _),
    fun n g g' row col p q h =>
      (evolves_showCellA false n g row col g' h).shownLe p q,
    fun n g g' row col p q h =>
      (evolves_showCellA true n g row col g' h).shownLe p q⟩

/-- Witness for C3 (amended): concrete boards — a 3×3 board terminates
under both variants, and a completed call keeps a shown cell shown. -/
theorem c3_flood_terminates_witness :
    (showCell1 (unshownCount mine33Board + 1) mine33Board 2 2).isSome = true ∧
      (showCell2 (unshownCount mine33Board + 1) mine33Board 2 2).isSome = true ∧
      (getCell oneCellShown 0 0).isShown = true :=
  ⟨c3_flood_terminates.1 mine33Board 2 2 (by decide),
    c3_flood_terminates.2.1 mine33Board 2 2 (by decide) (by decide),
    c3_flood_terminates.2.2.1 2 oneCellShown oneCellShown 0 0 0 0 (by decide) (by decide)⟩

/-- A completed call at a valid coordinate whose cell is on the flag
check path not flagged ends with that cell shown (well-formed boards). -/
theorem shown_of_showCellA (cf : Bool) (n : Nat) (g g' : Minesweeper) (row col : Int)
    (h : showCellA cf n g row col = some g') (hw : Wf g) (hval : ifCellValid g row col)
    (hflag : cf = true → (getCell g row.toNat col.toNat).isFlagged = false) :
    (getCell g' row.toNat col.toNat).isShown = true := by
  by_cases hsh : (getCell g row.toNat col.toNat).isShown = true
  · exact (evolves_showCellA cf n g row col g' h).shownLe _ _ hsh
  · have hguard : ¬(¬ ifCellValid g row col ∨
        (getCell g row.toNat col.toNat).isShown = true) := by
      rw [not_or]
      exact ⟨not_not.2 hval, hsh⟩
    cases n with
    | zero =>
      unfold showCellA at h
      rw [if_neg hguard] at h
      cases h
    | succ n =>
      have hrowcast : ((row.toNat : Int)) = row := Int.toNat_of_nonneg hval.1
      have hcolcast : ((col.toNat : Int)) = col := Int.toNat_of_nonneg hval.2.2.1
      have hshape := shape_of_valid hw hval
      have hA : (cf && (getCell g row.toNat col.toNat).isFlagged) = false := by
        cases cf with
        | false => rfl
        | true =>
          rw [hflag rfl]
          rfl
      have hgA : stepShow cf g row.toNat col.toNat =
          setCell g row.toNat col.toNat
            { getCell g row.toNat col.toNat with isShown := true } := by
        unfold stepShow
        rw [if_neg (by rw [hA]; exact Bool.false_ne_true)]
      have hshA : (getCell (stepShow cf g row.toNat col.toNat)
          row.toNat col.toNat).isShown = true := by
        rw [hgA, getCell_setCell, if_pos ⟨rfl, rfl, hshape.1, hshape.2⟩]
      have he2 : Evolves cf (stepShow cf g row.toNat col.toNat)
          (stepNearby (stepShow cf g row.toNat col.toNat) row.toNat col.toNat row col) :=
        evolves_stepNearby cf _ row.toNat col.toNat row col hrowcast hcolcast
      have hsh2 : (getCell (stepNearby (stepShow cf g row.toNat col.toNat)
          row.toNat col.toNat row col) row.toNat col.toNat).isShown = true :=
        he2.shownLe _ _ hshA
      rw [showCellA_expand cf n g row col hguard] at h
      by_cases hz : (getCell (stepNearby (stepShow cf g row.toNat col.toNat)
          row.toNat col.toNat row col) row.toNat col.toNat).nearbyMines = 0
      · rw [if_pos hz] at h
        exact (evolves_showNeighbors_of (evolves_showCellA cf n)
          _ _ _ _ _ h).shownLe _ _ hsh2
      · rw [if_neg hz] at h
        injection h with h
        rw [← h]
        exact hsh2

/-- A completed neighbour fold shows every listed valid neighbour that
is (on the flag-checking path) unflagged. -/
theorem showNeighbors_shows (cf : Bool) (n : Nat) :
    ∀ (ds : List (Int × Int)) (s s' : Minesweeper) (row col : Int),
      showNeighbors (showCellA cf n) s ds row col = some s' → Wf s →
      ∀ d ∈ ds, ifCellValid s (row + d.1) (col + d.2) →
        (cf = true → (getCell s (row + d.1).toNat (col + d.2).toNat).isFlagged = false) →
        (getCell s' (row + d.1).toNat (col + d.2).toNat).isShown = true := by
  intro ds
  induction ds with
  | nil =>
    intro s s' row col h hw d hd
    cases hd
  | cons d0 rest ih =>
    intro s s' row col h hw d hd hval hflag
    unfold showNeighbors at h
    cases hc : showCellA cf n s (row + d0.1) (col + d0.2) with
    | none =>
      rw [hc] at h
      cases h
    | some s3 =>
      rw [hc] at h
      have he3 := evolves_showCellA cf n s (row + d0.1) (col + d0.2) s3 hc
      rcases List.mem_cons.1 hd with rfl | hdrest
      · have hs3 : (getCell s3 (row + d.1).toNat (col + d.2).toNat).isShown = true :=
          shown_of_showCellA cf n s s3 (row + d.1) (col + d.2) hc hw hval hflag
        exact (evolves_showNeighbors_of (evolves_showCellA cf n)
          rest s3 row col s' h).shownLe _ _ hs3
      · have hval3 : ifCellValid s3 (row + d.1) (col + d.2) :=
          (ifCellValid_congr he3.rowsEq he3.colsEq _ _).mpr hval
        have hflag3 : cf = true →
            (getCell s3 (row + d.1).toNat (col + d.2).toNat).isFlagged = false :=
          fun hcf => (he3.flagEq _ _).trans (hflag hcf)
        exact ih s3 s' row col h (wf_evolves he3 hw) d hdrest hval3 hflag3

/-- C9: when the flag-checking `showCell` is invoked on a valid,
hidden, flagged cell of a well-formed board and completes, it leaves
`isShown` false but still overwrites the cell's `nearbyMines` with the
adjacency count, and when that count is zero it still floods into the
neighbours: every valid unflagged neighbour ends up shown. -/
theorem c9_flagged_cell_reveal_effects (n : Nat) (g g' : Minesweeper) (row col : Int)
    (h : showCell2 n g row col = some g') (hw : Wf g) (hval : ifCellValid g row col)
    (hflag : (getCell g row.toNat col.toNat).isFlagged = true)
    (hunshown : (getCell g row.toNat col.toNat).isShown = false) :
    (getCell g' row.toNat col.toNat).isShown = false ∧
      (getCell g' row.toNat col.toNat).nearbyMines = countNearbyMines g row col ∧
      (countNearbyMines g row col = 0 →
        ∀ d ∈ deltas, ifCellValid g (row + d.1) (col + d.2) →
          (getCell g (row + d.1).toNat (col + d.2).toNat).isFlagged = false →
          (getCell g' (row + d.1).toNat (col + d.2).toNat).isShown = true) := by
  have hm : Evolves true g g' := evolves_showCellA true n g row col g' h
  have h1 : (getCell g' row.toNat col.toNat).isShown = false :=
    (hm.flagShown rfl _ _ hflag).trans hunshown
  have hguard : ¬(¬ ifCellValid g row col ∨
      (getCell g row.toNat col.toNat).isShown = true) := by
    rw [not_or]
    exact ⟨not_not.2 hval, by rw [hunshown]; exact Bool.false_ne_true⟩
  cases n with
  | zero =>
    have h0 : showCellA true 0 g row col = some g' := h
    unfold showCellA at h0
    rw [if_neg hguard] at h0
    cases h0
  | succ n =>
    have hrowcast : ((row.toNat : Int)) = row := Int.toNat_of_nonneg hval.1
    have hcolcast : ((col.toNat : Int)) = col := Int.toNat_of_nonneg hval.2.2.1
    have hshape := shape_of_valid hw hval
    have hsA : stepShow true g row.toNat col.toNat = g := by
      unfold stepShow
      rw [if_pos (by rw [hflag]; rfl)]
    have hexp : showCellA true (n + 1) g row col =
        (if (getCell (stepNearby g row.toNat col.toNat row col)
            row.toNat col.toNat).nearbyMines = 0 then
          showNeighbors (showCellA true n) (stepNearby g row.toNat col.toNat row col)
            deltas row col
        else some (stepNearby g row.toNat col.toNat row col)) := by
      rw [showCellA_expand true n g row col hguard, hsA]
    have h' : (if (getCell (stepNearby g row.toNat col.toNat row col)
        row.toNat col.toNat).nearbyMines = 0 then
          showNeighbors (showCellA true n) (stepNearby g row.toNat col.toNat row col)
            deltas row col
        else some (stepNearby g row.toNat col.toNat row col)) = some g' := by
      rw [← hexp]
      exact h
    have hs2v : getCell (stepNearby g row.toNat col.toNat row col) row.toNat col.toNat =
        { getCell g row.toNat col.toNat with
          nearbyMines := countNearbyMines g row col } := by
      unfold stepNearby
      rw [getCell_setCell, if_pos ⟨rfl, rfl, hshape.1, hshape.2⟩]
    have hss2 : Evolves true g (stepNearby g row.toNat col.toNat row col) :=
      evolves_stepNearby true g row.toNat col.toNat row col hrowcast hcolcast
    have hs2s' : Evolves true (stepNearby g row.toNat col.toNat row col) g' := by
      by_cases hz0 : (getCell (stepNearby g row.toNat col.toNat row col)
          row.toNat col.toNat).nearbyMines = 0
      · rw [if_pos hz0] at h'
        exact evolves_showNeighbors_of (evolves_showCellA true n) _ _ _ _ _ h'
      · rw [if_neg hz0] at h'
        injection h' with h'
        exact h' ▸ evolves_refl true _
    have h2 : (getCell g' row.toNat col.toNat).nearbyMines =
        countNearbyMines g row col := by
      rcases hs2s'.nearbyOr row.toNat col.toNat with hx | hx
      · rw [hx, hs2v]
      · rw [hx, countNearbyMines_congr hss2.rowsEq hss2.colsEq hss2.mineEq,
          hrowcast, hcolcast]
    refine ⟨h1, h2, ?_⟩
    intro hcnt d hd hvald hflagd
    have hzv : (getCell (stepNearby g row.toNat col.toNat row col)
        row.toNat col.toNat).nearbyMines = 0 := by
      rw [hs2v]
      exact hcnt
    rw [if_pos hzv] at h'
    exact showNeighbors_shows true n deltas (stepNearby g row.toNat col.toNat row col)
      g' row col h' (wf_evolves hss2 hw) d hd
      ((ifCellValid_congr hss2.rowsEq hss2.colsEq _ _).mpr hvald)
      (fun _ => (hss2.flagEq _ _).trans hflagd)

/-- Witness for C9: revealing the flagged zero-adjacency cell (0,0) of
`flagLeftBoard` leaves it hidden, writes its adjacency count, and
reveals its unflagged neighbour (0,1). -/
theorem c9_flagged_cell_reveal_effects_witness :
    (getCell flagLeftAfter 0 0).isShown = false ∧
      (getCell flagLeftAfter 0 0).nearbyMines = countNearbyMines flagLeftBoard 0 0 ∧
      (getCell flagLeftAfter 0 1).isShown = true := by
  have hmain := c9_flagged_cell_reveal_effects 4 flagLeftBoard flagLeftAfter 0 0
    (by decide) (by decide) (by decide) (by decide) (by decide)
  exact ⟨hmain.1, hmain.2.1,
    hmain.2.2 (by decide) (0, 1) (by decide) (by decide) (by decide)⟩

/-- The coordinate list enumerates `rows * cols` cells. -/
theorem allCoords_length (rows cols : Nat) : (allCoords rows cols).length = rows * cols := by
  unfold allCoords
  rw [List.length_flatten, List.map_map]
  simp only [Function.comp]
  induction rows with
  | zero => simp
  | succ n ih =>
    rw [List.range_succ]
    simp [ih]
    ring

/-- Moving the `k`-th element of a list to the front while writing `a`
into its slot is a permutation of putting `a` in front. -/
theorem consSwap_perm {α : Type} (d : α) :
    ∀ (l : List α) (k : Nat) (a : α), k < l.length →
      (l.getD k d :: l.set k a).Perm (a :: l) := by
  intro l
  induction l with
  | nil =>
    intro k a hk
    simp at hk
  | cons c t ih =>
    intro k a hk
    cases k with
    | zero => exact List.Perm.swap a c t
    | succ k =>
      have hk' : k < t.length := by simpa using hk
      have h1 : (t.getD k d :: c :: t.set k a).Perm (c :: t.getD k d :: t.set k a) :=
        List.Perm.swap c (t.getD k d) (t.set k a)
      have h2 : (c :: t.getD k d :: t.set k a).Perm (c :: a :: t) :=
        List.Perm.cons c (ih k a hk')
      have h3 : (c :: a :: t).Perm (a :: c :: t) := List.Perm.swap a c t
      exact (h1.trans h2).trans h3

/-- A Fisher–Yates swap permutes the list. -/
theorem listSwap_perm :
    ∀ (l : List (Nat × Nat)) (i j : Nat), i < l.length → j < l.length →
      (listSwap l i j).Perm l := by
  have hsymm : ∀ (l : List (Nat × Nat)) (i j : Nat), i ≠ j → listSwap l i j = listSwap l j i := by
    intro l i j hij
    unfold listSwap
    exact List.set_comm _ _ l hij
  have hcore : ∀ (c : Nat × Nat) (t : List (Nat × Nat)) (j : Nat), j < t.length →
      (listSwap (c :: t) 0 (j + 1)).Perm (c :: t) := by
    intro c t j hj
    have heq : listSwap (c :: t) 0 (j + 1) = t.getD j (0, 0) :: t.set j c := rfl
    rw [heq]
    exact consSwap_perm (0, 0) t j c hj
  intro l
  induction l with
  | nil =>
    intro i j hi
    simp at hi
  | cons c t ih =>
    intro i j hi hj
    cases i with
    | zero =>
      cases j with
      | zero =>
        have : listSwap (c :: t) 0 0 = c :: t := by
          unfold listSwap
          rw [list_set_getD, list_set_getD]
        rw [this]
      | succ j => exact hcore c t j (by simpa using hj)
    | succ i =>
      cases j with
      | zero =>
        rw [hsymm _ _ _ (by omega)]
        exact hcore c t i (by simpa using hi)
      | succ j =>
        have heq : listSwap (c :: t) (i + 1) (j + 1) = c :: listSwap t i j := rfl
        rw [heq]
        exact List.Perm.cons c (ih i j (by simpa using hi) (by simpa using hj))

/-- The Fisher–Yates loop permutes the list when started in range. -/
theorem fyShuffle_perm (rand : Nat → Nat) (hrand : ∀ k, rand k ≤ k) :
    ∀ (i : Nat) (l : List (Nat × Nat)), i < l.length → (fyShuffle rand i l).Perm l := by
  intro i
  induction i with
  | zero =>
    intro l _
    exact List.Perm.refl l
  | succ i ih =>
    intro l hi
    unfold fyShuffle
    have hswap : (listSwap l (i + 1) (rand (i + 1))).Perm l :=
      listSwap_perm l (i + 1) (rand (i + 1)) hi (lt_of_le_of_lt (hrand (i + 1)) hi)
    have hlen : (listSwap l (i + 1) (rand (i + 1))).length = l.length := hswap.length_eq
    exact (ih _ (by omega)).trans hswap

/-- The write `setCell` preserves well-formedness. -/
theorem wf_setCell {g : Minesweeper} (hw : Wf g) (r c : Nat) (cell : Cell) :
    Wf (setCell g r c cell) := by
  refine ⟨hw.1, hw.2.1, ?_, ?_⟩
  · show (g.board.set r _).length = g.rows.toNat
    rw [List.length_set]
    exact hw.2.2.1
  · by_cases hr : r < g.board.length
    · intro row hrow
      rcases List.mem_or_eq_of_mem_set hrow with hmem | rfl
      · exact hw.2.2.2 _ hmem
      · show ((g.board.getD r []).set c cell).length = _
        rw [List.length_set]
        have hmem2 : g.board.getD r [] ∈ g.board := by
          rw [List.getD_eq_getElem?_getD, List.getElem?_eq_getElem hr]
          exact List.getElem_mem hr
        exact hw.2.2.2 _ hmem2
    · have hb : (setCell g r c cell).board = g.board := by
        show g.board.set r _ = g.board
        exact List.set_eq_of_length_le (Nat.le_of_not_lt hr)
      intro row hrow
      rw [hb] at hrow
      exact hw.2.2.2 _ hrow

/-- The write `setMine` leaves other coordinates untouched. -/
theorem getCell_setMine_ne {g : Minesweeper} {rc y : Nat × Nat} (hne : y ≠ rc) :
    getCell (setMine g rc) y.1 y.2 = getCell g y.1 y.2 := by
  unfold setMine
  rw [getCell_setCell, if_neg]
  intro hh
  exact hne (Prod.ext hh.1.symm hh.2.1.symm)

/-- Marking a fresh in-shape coordinate adds exactly one mine. -/
theorem countMines_setMine {g : Minesweeper} {rc : Nat × Nat}
    (hmem : rc ∈ allCoords g.rows.toNat g.cols.toNat)
    (hshape : rc.1 < g.board.length ∧ rc.2 < (g.board.getD rc.1 []).length)
    (hnomine : (getCell g rc.1 rc.2).isMine = false) :
    countMines (setMine g rc) = countMines g + 1 := by
  unfold countMines
  apply countP_pred_flip _ _ _ rc hmem (allCoords_nodup _ _)
  · show (getCell (setMine g rc) rc.1 rc.2).isMine = true
    unfold setMine
    rw [getCell_setCell, if_pos ⟨rfl, rfl, hshape.1, hshape.2⟩]
  · exact hnomine
  · intro y _ hne
    show (getCell (setMine g rc) y.1 y.2).isMine = (getCell g y.1 y.2).isMine
    rw [getCell_setMine_ne hne]

/-- The marking loop of `PlaceMinesRandomly`: it always completes (no
out-of-bounds access) and adds one mine per iteration, for a total of
`min n coords.length - i` new mines. -/
theorem markLoop_spec :
    ∀ (k : Nat) (g : Minesweeper) (coords : List (Nat × Nat)) (n i : Nat),
      n - i ≤ k → Wf g →
      (coords.drop i).Nodup →
      (∀ rc ∈ coords.drop i, rc.1 < g.rows.toNat ∧ rc.2 < g.cols.toNat) →
      (∀ rc ∈ coords.drop i, (getCell g rc.1 rc.2).isMine = false) →
      ∃ g', markLoop g coords n i = some g' ∧
        countMines g' = countMines g + (min n coords.length - i) ∧
        g'.rows = g.rows ∧ g'.cols = g.cols := by
  intro k
  induction k with
  | zero =>
    intro g coords n i hk hw hnd hvalid hnomine
    have hstop : ¬(i < n ∧ i < coords.length) := by omega
    unfold markLoop
    rw [dif_neg hstop]
    have h1 := Nat.min_le_left n coords.length
    refine ⟨g, rfl, by omega, rfl, rfl⟩
  | succ k ihk =>
    intro g coords n i hk hw hnd hvalid hnomine
    by_cases hcond : i < n ∧ i < coords.length
    · have hget : coords[i]? = some coords[i] := List.getElem?_eq_getElem hcond.2
      have hdrop : coords.drop i = coords[i] :: coords.drop (i + 1) :=
        List.drop_eq_getElem_cons hcond.2
      have hrcmem : coords[i] ∈ coords.drop i := by
        rw [hdrop]
        exact List.mem_cons_self _ _
      have hrcvalid := hvalid _ hrcmem
      have hrcnomine := hnomine _ hrcmem
      have hshape : coords[i].1 < g.board.length ∧
          coords[i].2 < (g.board.getD coords[i].1 []).length := by
        constructor
        · rw [hw.2.2.1]
          exact hrcvalid.1
        · have hr : coords[i].1 < g.board.length := by
            rw [hw.2.2.1]
            exact hrcvalid.1
          have hmem2 : g.board.getD coords[i].1 [] ∈ g.board := by
            rw [List.getD_eq_getElem?_getD, List.getElem?_eq_getElem hr]
            exact List.getElem_mem hr
          rw [hw.2.2.2 _ hmem2]
          exact hrcvalid.2
      have hmemAll : coords[i] ∈ allCoords g.rows.toNat g.cols.toNat :=
        mem_allCoords.2 hrcvalid
      have hcount : countMines (setMine g coords[i]) = countMines g + 1 :=
        countMines_setMine hmemAll hshape hrcnomine
      have hw' : Wf (setMine g coords[i]) := wf_setCell hw _ _ _
      have hnd' : (coords.drop (i + 1)).Nodup := by
        rw [hdrop] at hnd
        exact (List.nodup_cons.1 hnd).2
      have hnotin : coords[i] ∉ coords.drop (i + 1) := by
        rw [hdrop] at hnd
        exact (List.nodup_cons.1 hnd).1
      have hvalid' : ∀ rc ∈ coords.drop (i + 1),
          rc.1 < (setMine g coords[i]).rows.toNat ∧
            rc.2 < (setMine g coords[i]).cols.toNat := by
        intro rc hrc
        exact hvalid rc (by rw [hdrop]; exact List.mem_cons_of_mem _ hrc)
      have hnomine' : ∀ rc ∈ coords.drop (i + 1),
          (getCell (setMine g coords[i]) rc.1 rc.2).isMine = false := by
        intro rc hrc
        have hne : rc ≠ coords[i] := fun hrceq => hnotin (hrceq ▸ hrc)
        rw [getCell_setMine_ne hne]
        exact hnomine rc (by rw [hdrop]; exact List.mem_cons_of_mem _ hrc)
      obtain ⟨g', hloop, hcnt, hr', hc'⟩ :=
        ihk (setMine g coords[i]) coords n (i + 1) (by omega) hw' hnd' hvalid' hnomine'
      have hminlb : i < min n coords.length := lt_min hcond.1 hcond.2
      refine ⟨g', ?_, ?_, hr', hc'⟩
      · unfold markLoop
        rw [dif_pos hcond, hget]
        exact hloop
      · rw [hcnt, hcount]
        omega
    · unfold markLoop
      rw [dif_neg hcond]
      have h1 := Nat.min_le_left n coords.length
      have h2 := Nat.min_le_right n coords.length
      refine ⟨g, rfl, by omega, rfl, rfl⟩

/-- Fresh boards are well formed. -/
theorem wf_newMinesweeper (rows cols : Nat) : Wf (newMinesweeper rows cols) := by
  refine ⟨by simp [newMinesweeper], by simp [newMinesweeper], ?_, ?_⟩
  · show (List.replicate rows _).length = ((rows : Int)).toNat
    rw [List.length_replicate, Int.toNat_natCast]
  · intro row hrow
    have := List.eq_of_mem_replicate hrow
    rw [this]
    show (List.replicate cols _).length = ((cols : Int)).toNat
    rw [List.length_replicate, Int.toNat_natCast]

/-- Every cell of a fresh board is the zero cell. -/
theorem getCell_newMinesweeper (rows cols r c : Nat) :
    getCell (newMinesweeper rows cols) r c = default := by
  unfold getCell newMinesweeper
  have hrow : ∀ d : List Cell, (List.replicate rows (List.replicate cols
      (default : Cell))).getD r d = d ∨ (List.replicate rows (List.replicate cols
      (default : Cell))).getD r d = List.replicate cols default := by
    intro d
    rcases Nat.lt_or_ge r rows with h | h
    · right
      rw [List.getD_eq_getElem?_getD, List.getElem?_eq_getElem (by simpa using h)]
      simp [List.getElem_replicate]
    · left
      rw [List.getD_eq_getElem?_getD, List.getElem?_eq_none (by simpa using h)]
      rfl
  rcases hrow [] with h | h
  · rw [h]
    rfl
  · rw [h]
    rcases Nat.lt_or_ge c cols with h2 | h2
    · rw [List.getD_eq_getElem?_getD, List.getElem?_eq_getElem (by simpa using h2)]
      simp [List.getElem_replicate]
    · rw [List.getD_eq_getElem?_getD, List.getElem?_eq_none (by simpa using h2)]
      rfl

/-- Fresh boards hold no mine. -/
theorem countMines_newMinesweeper (rows cols : Nat) :
    countMines (newMinesweeper rows cols) = 0 := by
  unfold countMines
  rw [List.countP_eq_zero]
  intro rc _
  rw [getCell_newMinesweeper]
  simp

/-- Running `PlaceMinesRandomly` on a fresh R×C board completes and marks
exactly `min N (R*C)` cells as mines, for any in-range random draws. -/
theorem placeMines_spec (R C N : Nat) (rand : Nat → Nat) (hrand : ∀ k, rand k ≤ k) :
    ∃ g', placeMinesRandomly (newMinesweeper R C) N rand = some g' ∧
      countMines g' = min N (R * C) := by
  have hdims : (newMinesweeper R C).rows.toNat = R ∧ (newMinesweeper R C).cols.toNat = C :=
    ⟨Int.toNat_natCast R, Int.toNat_natCast C⟩
  have hcoords : allCoords (newMinesweeper R C).rows.toNat (newMinesweeper R C).cols.toNat =
      allCoords R C := by
    rw [hdims.1, hdims.2]
  have hlen : (allCoords R C).length = R * C := allCoords_length R C
  have hperm : (fyShuffle rand ((allCoords R C).length - 1) (allCoords R C)).Perm
      (allCoords R C) := by
    by_cases h0 : (allCoords R C).length = 0
    · have : (allCoords R C).length - 1 = 0 := by omega
      rw [this]
      exact List.Perm.refl _
    · exact fyShuffle_perm rand hrand _ _ (by omega)
  have hnd : (fyShuffle rand ((allCoords R C).length - 1) (allCoords R C)).Nodup :=
    (hperm.symm).nodup (allCoords_nodup R C)
  have hlen2 : (fyShuffle rand ((allCoords R C).length - 1) (allCoords R C)).length = R * C :=
    hperm.length_eq.trans hlen
  have hvalid : ∀ rc ∈ fyShuffle rand ((allCoords R C).length - 1) (allCoords R C),
      rc.1 < (newMinesweeper R C).rows.toNat ∧ rc.2 < (newMinesweeper R C).cols.toNat := by
    intro rc hrc
    have := mem_allCoords.1 (hperm.mem_iff.1 hrc)
    rw [hdims.1, hdims.2]
    exact this
  have hnomine : ∀ rc ∈ fyShuffle rand ((allCoords R C).length - 1) (allCoords R C),
      (getCell (newMinesweeper R C) rc.1 rc.2).isMine = false := by
    intro rc _
    rw [getCell_newMinesweeper]
    rfl
  obtain ⟨g', hloop, hcnt, -, -⟩ := markLoop_spec N (newMinesweeper R C)
    (fyShuffle rand ((allCoords R C).length - 1) (allCoords R C)) N 0
    (by omega) (wf_newMinesweeper R C) (by simpa using hnd)
    (by simpa using hvalid) (by simpa using hnomine)
  refine ⟨g', ?_, ?_⟩
  · unfold placeMinesRandomly
    rw [hcoords]
    exact hloop
  · rw [hcnt, countMines_newMinesweeper, hlen2]
    omega

/-- C5: for every board size R×C and mine count N < R*C, and every
sequence of in-range random draws (`rand k ≤ k`, the contract of
`Intn(k+1)`), `PlaceMinesRandomly` on a fresh board terminates with
exactly N mined cells. -/
theorem c5_placeMines_exactly_n (R C N : Nat) (rand : Nat → Nat)
    (hrand : ∀ k, rand k ≤ k) (hN : N < R * C) :
    ∃ g', placeMinesRandomly (newMinesweeper R C) N rand = some g' ∧
      countMines g' = N := by
  obtain ⟨g', h1, h2⟩ := placeMines_spec R C N rand hrand
  exact ⟨g', h1, by rw [h2, Nat.min_eq_left (Nat.le_of_lt hN)]⟩

/-- Witness for C5: a 2×2 board with 3 mines and the constant draw 0. -/
theorem c5_placeMines_exactly_n_witness :
    ∃ g', placeMinesRandomly (newMinesweeper 2 2) 3 (fun _ => 0) = some g' ∧
      countMines g' = 3 :=
  c5_placeMines_exactly_n 2 2 3 (fun _ => 0) (fun k => Nat.zero_le k) (by omega)

/-- C10: for every mine count N — including N ≥ rows*cols — the
mine-placement loop completes without any out-of-bounds index (the
embedded index lookup never fails) and marks `min N (R*C)` cells as
mines: every cell when N ≥ R*C. -/
theorem c10_placeMines_oversized_safe (R C N : Nat) (rand : Nat → Nat)
    (hrand : ∀ k, rand k ≤ k) :
    ∃ g', placeMinesRandomly (newMinesweeper R C) N rand = some g' ∧
      countMines g' = min N (R * C) ∧
      (R * C ≤ N → countMines g' = R * C) := by
  obtain ⟨g', h1, h2⟩ := placeMines_spec R C N rand hrand
  exact ⟨g', h1, h2, fun hle => by rw [h2, Nat.min_eq_right hle]⟩

/-- Witness for C10: 9 mines requested on a 2×2 board mark all 4 cells. -/
theorem c10_placeMines_oversized_safe_witness :
    ∃ g', placeMinesRandomly (newMinesweeper 2 2) 9 (fun _ => 0) = some g' ∧
      countMines g' = min 9 (2 * 2) ∧ (2 * 2 ≤ 9 → countMines g' = 2 * 2) :=
  c10_placeMines_oversized_safe 2 2 9 (fun _ => 0) (fun k => Nat.zero_le k)
